import Mathlib

/-!
# Schema registry client (`internal/impl/confluent/sr/client.go`)

A shallow embedding of the schema registry client: the reference walker
(`WalkReferences`, `walkReferencesTracked`), the transport (`doRequest`) and
the two schema accessors (`GetSchemaByID`, `GetSchemaBySubjectAndVersion`).

Conventions of the embedding.

* A Go `error` is modelled by its message (`String`); `nil` is `none`.
* Go `int` values (versions, ids, status codes) are only compared and printed,
  never used in arithmetic, so they are modelled as `Int`.
* A `[]byte` body is modelled as a `String`.
* Library functions (`url.JoinPath`, `json.Unmarshal`, `bytes.TrimSpace`, the
  HTTP client) and injected dependencies (the request signer, the visitor
  closure, the registry behind the accessor) are parameters.
* The recursion of `walkReferencesTracked` is bounded by a fuel argument that
  counts the nesting depth of calls; running out of fuel is reported as
  `Outcome.outOfFuel`, which is distinct from every Go result.
-/

namespace SR

deriving instance DecidableEq for Except

/-! ## Data model -/

/-- SchemaReference is a reference to another schema within the registry. -/
structure SchemaReference where
  Name : String
  Subject : String
  Version : Int
deriving DecidableEq, Repr

/-- SchemaInfo is the information about a schema stored in the registry. The Go field
`Type` is called `SchemaType` here (its JSON name). -/
structure SchemaInfo where
  ID : Int
  SchemaType : String
  Schema : String
  References : List SchemaReference
deriving DecidableEq, Repr

/-! ## Transport -/

/-- An outgoing HTTP request, as far as `doRequest` fills it in. -/
structure Request where
  verb : String
  url : String
  body : String
  header : List (String × String)
deriving DecidableEq, Repr

/-- What one iteration of the retry loop can observe: `c.client.Do(req)` returned an error
(a connection failure), or it returned a response with a status code, whose body, if it is
read, yields the bytes `body` and possibly a read error. -/
inductive AttemptOutcome where
  | connFail (err : String)
  | response (status : Int) (body : String) (readErr : Option String)
deriving DecidableEq, Repr

/-- The calls `doRequest` makes to its injected collaborators, in order: the request signer,
and the dispatch of loop iteration `i`. -/
inductive TransportEvent where
  | sign
  | dispatch (i : Nat)
deriving DecidableEq, Repr

/-- The client together with the library functions its methods call. The fields stand for:
`url.JoinPath(reqURL.Path, reqPath)`; `reqURL.String()` for the joined path;
`url.PathUnescape`; the error of `http.NewRequestWithContext` (`none` for `nil`);
`c.requestSigner(c.mgr.FS(), req)`, which may change the request and may fail;
`c.client.Do(req)` followed by `io.ReadAll(res.Body)` in loop iteration `i`;
`bytes.TrimSpace`; `url.PathEscape`; the `%q` verb of `fmt`; and
`json.Unmarshal` into a `SchemaInfo`. -/
structure Client where
  joinPath : String → Except String String
  urlString : String → String
  pathUnescape : String → Except String String
  newRequest : String → String → String → Option String
  requestSigner : Request → Except String Request
  send : Nat → Request → AttemptOutcome
  trimSpace : String → String
  pathEscape : String → String
  quote : String → String
  unmarshal : String → Except String SchemaInfo

/-- The named results of `doRequest`, with the calls it made to its collaborators. -/
structure DoResult where
  resCode : Int
  resBody : String
  err : Option String
  trace : List TransportEvent
deriving DecidableEq, Repr

/-- The regular expression `(?i)%2F` of `escapedSepRegexp`, as a search in a list of
characters: a percent sign, the digit 2, and the letter F in either case. -/
def matchEscapedSep : List Char → Bool
  | [] => false
  | c :: cs =>
    (match c, cs with
      | p, d :: f :: _ => p == Char.ofNat 37 && d == Char.ofNat 50 &&
          (f == Char.ofNat 70 || f == Char.ofNat 102)
      | _, _ => false) || matchEscapedSep cs

/-- Lines 280-308 of `doRequest`: the request is assembled; any failure on the way is
returned at once. -/
def buildRequest (c : Client) (verb reqPath body : String) : Except String Request :=
  match c.joinPath reqPath with
  | .error e => .error e
  | .ok path =>
    match (if matchEscapedSep reqPath.toList then c.pathUnescape (c.urlString path)
           else .ok (c.urlString path)) with
    | .error e => .error e
    | .ok reqURLString =>
      match c.newRequest verb reqURLString body with
      | some e => .error e
      | none =>
        .ok { verb := verb, url := reqURLString, body := body,
              header := [(if verb = "POST" then "Content-Type" else "Accept",
                          "application/vnd.schemaregistry.v1+json")] }

/-- The error of a response that is neither 200 nor 404 (lines 332-336). -/
def statusError (c : Client) (resCode : Int) (resBody : String) : String :=
  if 0 < resBody.length then
    "status code " ++ toString resCode ++ ": " ++ c.trimSpace resBody
  else
    "status code " ++ toString resCode

/-- The loop `for i := 0; i < 3; i++` of `doRequest` (lines 313-340), entered at iteration
`i` with `n` iterations left and the named results `r`. -/
def retryLoop (c : Client) (req : Request) : Nat → Nat → DoResult → DoResult
  | 0, _, r => r
  | n + 1, i, r =>
    match c.send i req with
    | .connFail e =>
      retryLoop c req n (i + 1) { r with err := some e, trace := r.trace ++ [.dispatch i] }
    | .response status body readErr =>
      if status = 404 then
        { r with resCode := status, err := none, trace := r.trace ++ [.dispatch i] }
      else
        match readErr with
        | some e =>
          { resCode := status, resBody := body, err := some e,
            trace := r.trace ++ [.dispatch i] }
        | none =>
          if status ≠ 200 then
            { resCode := status, resBody := body, err := some (statusError c status body),
              trace := r.trace ++ [.dispatch i] }
          else
            { resCode := status, resBody := body, err := none,
              trace := r.trace ++ [.dispatch i] }

/-- What an iteration of the retry loop leaves in the named results once a response has
arrived (lines 320-339), given the calls made so far and the body held before. -/
def responseResult (c : Client) (trace : List TransportEvent) (oldBody : String)
    (status : Int) (body : String) (readErr : Option String) : DoResult :=
  if status = 404 then
    { resCode := status, resBody := oldBody, err := none, trace := trace }
  else
    match readErr with
    | some e => { resCode := status, resBody := body, err := some e, trace := trace }
    | none =>
      if status ≠ 200 then
        { resCode := status, resBody := body, err := some (statusError c status body),
          trace := trace }
      else { resCode := status, resBody := body, err := none, trace := trace }

/-- The method `doRequest`. -/
def doRequest (c : Client) (verb reqPath body : String) : DoResult :=
  match buildRequest c verb reqPath body with
  | .error e => { resCode := 0, resBody := "", err := some e, trace := [] }
  | .ok req =>
    match c.requestSigner req with
    | .error e => { resCode := 0, resBody := "", err := some e, trace := [.sign] }
    | .ok signed =>
      retryLoop c signed 3 0 { resCode := 0, resBody := "", err := none, trace := [.sign] }

/-- The number of dispatch attempts among the calls of a transport run. -/
def attempts (trace : List TransportEvent) : Nat :=
  (trace.filter (fun ev => ev ≠ .sign)).length

/-- The number of invocations of the request signer among the calls of a transport run. -/
def signerCalls (trace : List TransportEvent) : Nat :=
  (trace.filter (fun ev => ev = .sign)).length

/-! ## Registry accessors -/

/-- Lines 106-122 and 142-158, common to both accessors once the transport has answered
without error: `notFound` is the not-found message of the accessor. -/
def decodeResponse (c : Client) (notFound : String) (r : DoResult) : Except String SchemaInfo :=
  if r.resCode = 404 then .error notFound
  else if r.resBody.length = 0 then .error "schema request returned an empty body"
  else c.unmarshal r.resBody

/-- The method `GetSchemaByID`. -/
def GetSchemaByID (c : Client) (id : Int) : Except String SchemaInfo :=
  let r := doRequest c "GET" ("/schemas/ids/" ++ toString id) ""
  match r.err with
  | some e => .error ("request failed for schema \x27" ++ toString id ++ "\x27: " ++ e)
  | none => decodeResponse c ("schema \x27" ++ toString id ++ "\x27 not found by registry") r

/-- The request path of `GetSchemaBySubjectAndVersion` (lines 127-132); a `nil` version asks
for the latest schema. -/
def subjectVersionPath (c : Client) (subject : String) (version : Option Int) : String :=
  match version with
  | some v => "/subjects/" ++ c.pathEscape subject ++ "/versions/" ++ toString v
  | none => "/subjects/" ++ c.pathEscape subject ++ "/versions/latest"

/-- The method `GetSchemaBySubjectAndVersion`. -/
def GetSchemaBySubjectAndVersion (c : Client) (subject : String) (version : Option Int) :
    Except String SchemaInfo :=
  let r := doRequest c "GET" (subjectVersionPath c subject version) ""
  match r.err with
  | some e => .error ("request failed for schema subject " ++ c.quote subject ++ ": " ++ e)
  | none => decodeResponse c ("schema subject " ++ c.quote subject ++ " not found by registry") r

/-! ## Reference walker -/

/-- One observable interaction of a walk with its collaborators, with its outcome.
`fetch s v res` is the call `c.GetSchemaBySubjectAndVersion(ctx, s, &v)`;
`visit ref info res` is the call `fn(ctx, ref.Name, info)` made for the reference `ref`. -/
inductive Event where
  | fetch (subject : String) (version : Int) (res : Except String SchemaInfo)
  | visit (ref : SchemaReference) (info : SchemaInfo) (res : Option String)
deriving DecidableEq

/-- The error carried by a failed interaction, if it failed. -/
def Event.failure : Event → Option String
  | .fetch _ _ (.error e) => some e
  | .fetch _ _ (.ok _) => none
  | .visit _ _ res => res

/-- The registry accessor as the walker sees it: `GetSchemaBySubjectAndVersion` applied to a
subject and a version, whose answer may depend on everything that happened before. -/
abbrev GetSchema := List Event → String → Int → Except String SchemaInfo

/-- The visitor closure `refWalkFn`: called with a name and a schema, it returns `nil` or an
error; it may be stateful, so its answer may depend on the history. -/
abbrev RefWalkFn := List Event → String → SchemaInfo → Option String

/-- The mutable state of one walk: the `seen` map (`map[string]int`) and the history of
interactions so far (oldest first). -/
structure WalkState where
  seen : String → Option Int
  log : List Event

/-- The assignment `seen[name] = version`. -/
def seenSet (seen : String → Option Int) (name : String) (version : Int) : String → Option Int :=
  fun k => if k = name then some version else seen k

/-- What a bounded run of the walker produced: the Go return value (`nil` or an error), or
the information that the depth bound was hit first. -/
inductive Outcome where
  | done (err : Option String)
  | outOfFuel
deriving DecidableEq, Repr

/-- The message built at line 260:
`fmt.Errorf("duplicate reference '%v' version mismatch of %v and %v, aborting in order to avoid invalid state", ref.Name, i, ref.Version)`. -/
def mismatchError (name : String) (i version : Int) : String :=
  "duplicate reference \x27" ++ name ++ "\x27 version mismatch of " ++ toString i ++ " and "
    ++ toString version ++ ", aborting in order to avoid invalid state"

/-- The history after the fetch made for `ref` answered `info`. -/
def logFetched (st : WalkState) (ref : SchemaReference) (info : SchemaInfo) : List Event :=
  st.log ++ [.fetch ref.Subject ref.Version (.ok info)]

/-- The state in which the children of `ref` are walked: `ref` fetched, visited and recorded
(`seen[ref.Name] = ref.Version`, line 271). -/
def stateVisited (st : WalkState) (ref : SchemaReference) (info : SchemaInfo) : WalkState :=
  { seen := seenSet st.seen ref.Name ref.Version
    log := logFetched st ref info ++ [.visit ref info none] }

/-- The `for _, ref := range refs` loop of `walkReferencesTracked` (lines 257-276); the
recursive call of line 272 is the parameter `recurse`. -/
def walkLoop (getSchema : GetSchema) (fn : RefWalkFn)
    (recurse : WalkState → List SchemaReference → Outcome × WalkState) :
    WalkState → List SchemaReference → Outcome × WalkState
  | st, [] => (.done none, st)
  | st, ref :: rest =>
    match st.seen ref.Name with
    | some i =>
      if i ≠ ref.Version then
        (.done (some (mismatchError ref.Name i ref.Version)), st)
      else
        walkLoop getSchema fn recurse st rest
    | none =>
      match getSchema st.log ref.Subject ref.Version with
      | .error e =>
        (.done (some e), { st with log := st.log ++ [.fetch ref.Subject ref.Version (.error e)] })
      | .ok info =>
        match fn (logFetched st ref info) ref.Name info with
        | some e =>
          (.done (some e), { st with log := logFetched st ref info ++ [.visit ref info (some e)] })
        | none =>
          match recurse (stateVisited st ref info) info.References with
          | (.done none, st3) => walkLoop getSchema fn recurse st3 rest
          | (out, st3) => (out, st3)

/-- The method `walkReferencesTracked`, with the nesting depth of its recursion bounded by
the first argument. -/
def walkReferencesTracked (getSchema : GetSchema) (fn : RefWalkFn) :
    Nat → WalkState → List SchemaReference → Outcome × WalkState
  | 0 => fun st _ => (.outOfFuel, st)
  | fuel + 1 => walkLoop getSchema fn (walkReferencesTracked getSchema fn fuel)

/-- The method `WalkReferences`: the walk started on an empty `seen` map. -/
def WalkReferences (getSchema : GetSchema) (fn : RefWalkFn) (fuel : Nat)
    (refs : List SchemaReference) : Outcome × WalkState :=
  walkReferencesTracked getSchema fn fuel { seen := fun _ => none, log := [] } refs

/-- A registry in the sense of the specification: a map from subject and version to a schema. -/
abbrev Registry := String → Int → SchemaInfo

/-- The accessor over a registry whose every fetch succeeds. -/
def Registry.getSchema (reg : Registry) : GetSchema := fun _ s v => .ok (reg s v)

/-- The visitor that always returns `nil`. -/
def okVisitor : RefWalkFn := fun _ _ _ => none

/-- The names handed to the visitor, in call order. -/
def visitedNames : List Event → List String
  | [] => []
  | .visit ref _ _ :: l => ref.Name :: visitedNames l
  | .fetch _ _ _ :: l => visitedNames l

/-- The reference graph of a registry below an input list: the input list together with the
reference lists of the schemas the registry returns, transitively. -/
inductive Reach (reg : Registry) (refs : List SchemaReference) : SchemaReference → Prop where
  | root {r : SchemaReference} : r ∈ refs → Reach reg refs r
  | step {p r : SchemaReference} :
      Reach reg refs p → r ∈ (reg p.Subject p.Version).References → Reach reg refs r

/-- The number of names of `U` that have no entry in the `seen` map. -/
def unseenCount (U : Finset String) (seen : String → Option Int) : Nat :=
  (U.filter (fun n => seen n = none)).card

/-- The list loop of the specification's traversal (section 4.3, step 2), without the error
paths: a reference whose name was visited is skipped, any other is visited and then its
children are traversed by `recurse` before the rest of the list. The argument `visited` is
the sequence of names visited so far, in order. -/
def specPreorderLoop (reg : Registry)
    (recurse : List String → List SchemaReference → Option (List String)) :
    List String → List SchemaReference → Option (List String)
  | visited, [] => some visited
  | visited, r :: rest =>
    if r.Name ∈ visited then
      specPreorderLoop reg recurse visited rest
    else
      match recurse (visited ++ [r.Name]) (reg r.Subject r.Version).References with
      | some visited2 => specPreorderLoop reg recurse visited2 rest
      | none => none

/-- The depth-first pre-order of the specification (section 4.3): the names of the graph in
the order "input list order, and below each visited reference its schema's own
reference-list order", every name once. The first argument bounds the nesting depth; the
answer is `none` when the bound is hit. -/
def specPreorder (reg : Registry) :
    Nat → List String → List SchemaReference → Option (List String)
  | 0 => fun _ _ => none
  | depth + 1 => specPreorderLoop reg (specPreorder reg depth)

/-- The visitor calls of a history, in call order: the name passed and what the call
returned. -/
def visitResults : List Event → List (String × Option String)
  | [] => []
  | .visit ref _ res :: l => (ref.Name, res) :: visitResults l
  | .fetch _ _ _ :: l => visitResults l

/-! ### Concrete registries and visitors used to exercise the walker -/

/-- A schema without references. -/
def leafSchema : SchemaInfo := { ID := 1, SchemaType := "AVRO", Schema := "", References := [] }

/-- A registry in which no schema has references. -/
def leafRegistry : Registry := fun _ _ => leafSchema

/-- The reference of the specification's example. -/
def refMoney : SchemaReference := { Name := "Money", Subject := "money", Version := 1 }

/-- The schema of subject `money`, version 1. -/
def moneySchema : SchemaInfo :=
  { ID := 3, SchemaType := "AVRO", Schema := "money", References := [] }

/-- The registry of the specification's example: `orders-value` references `Money`, which is
subject `money` at version 1 and has no references of its own. -/
def moneyRegistry : Registry := fun s _ =>
  if s = "orders-value" then
    { ID := 7, SchemaType := "AVRO", Schema := "orders", References := [refMoney] }
  else if s = "money" then moneySchema
  else leafSchema

def refA : SchemaReference := { Name := "A", Subject := "a", Version := 1 }

def refA2 : SchemaReference := { Name := "A", Subject := "a", Version := 2 }

def refB : SchemaReference := { Name := "B", Subject := "b", Version := 1 }

def refB2 : SchemaReference := { Name := "B", Subject := "b", Version := 2 }

def refC : SchemaReference := { Name := "C", Subject := "c", Version := 1 }

/-- The name `A` bound to subject `x`. -/
def refAx : SchemaReference := { Name := "A", Subject := "x", Version := 1 }

/-- The name `A` bound to subject `y`, at the same version as `refAx`. -/
def refAy : SchemaReference := { Name := "A", Subject := "y", Version := 1 }

/-- The name `A` bound to subject `z`, at the same version as `refAx`. -/
def refAz : SchemaReference := { Name := "A", Subject := "z", Version := 1 }

/-- Subject `s` at version 1 under the name `A`. -/
def refAs1 : SchemaReference := { Name := "A", Subject := "s", Version := 1 }

/-- Subject `s` at version 2 under the name `B`. -/
def refBs2 : SchemaReference := { Name := "B", Subject := "s", Version := 2 }

/-- The schema of subject `a`: it references `B`. -/
def schemaA : SchemaInfo := { ID := 1, SchemaType := "AVRO", Schema := "a", References := [refB] }

/-- The schema of subject `b` in the cyclic registry: it references `A`. -/
def schemaB : SchemaInfo := { ID := 2, SchemaType := "AVRO", Schema := "b", References := [refA] }

/-- A cyclic registry: subject `a` references `B` (subject `b`), which references `A`
(subject `a`) again, always at version 1. -/
def cycleRegistry : Registry := fun s _ =>
  if s = "a" then schemaA else if s = "b" then schemaB else leafSchema

/-- A registry in which several subjects are imported under one name: subject `x` has no
references, subject `y` references `B` at versions 1 and 2, subject `z` references `C`. -/
def aliasRegistry : Registry := fun s _ =>
  if s = "y" then
    { ID := 2, SchemaType := "AVRO", Schema := "y", References := [refB, refB2] }
  else if s = "z" then
    { ID := 3, SchemaType := "AVRO", Schema := "z", References := [refC] }
  else leafSchema

/-- The reference number `k` of an endless chain: its name consists of `k` letters. -/
def chainRef (k : Nat) : SchemaReference :=
  { Name := String.mk (List.replicate k (Char.ofNat 110)), Subject := "chain", Version := k }

/-- A registry with an infinite reference graph: version `v` of subject `chain` references
version `v + 1` of the same subject under a fresh name. -/
def chainRegistry : Registry := fun s v =>
  if s = "chain" then
    { ID := 0, SchemaType := "AVRO", Schema := "", References := [chainRef (v.toNat + 1)] }
  else leafSchema

/-- A visitor that fails on every call with the same error. -/
def boomVisitor : RefWalkFn := fun _ _ _ => some "boom"

/-- An accessor whose fetch of subject `b` fails; subject `a` references `B`. -/
def failingGetSchema : GetSchema := fun _ s _ =>
  if s = "b" then .error "registry down"
  else if s = "a" then .ok schemaA
  else .ok leafSchema

/-! ## Predicates on walker states and histories used in the proofs -/

/-- Every failed interaction among `new` is the last one and its error is the result. -/
def AbortsAt (new : List Event) (out : Outcome) : Prop :=
  ∀ pre ev post e, new = pre ++ ev :: post → ev.failure = some e →
    post = [] ∧ out = .done (some e)

/-- The keys of the `seen` map are exactly the names whose visit returned `nil`, each bound to
the version of the reference that was visited. -/
def SeenExact (st : WalkState) : Prop :=
  ∀ n v, st.seen n = some v ↔
    ∃ ref info, Event.visit ref info none ∈ st.log ∧ ref.Name = n ∧ ref.Version = v

/-- Every name handed to the visitor so far has an entry in the `seen` map. -/
def VisitedSeen (st : WalkState) : Prop :=
  ∀ n ∈ visitedNames st.log, st.seen n ≠ none

/-- The invariant of the walker state between two loop iterations. -/
def WalkInv (st : WalkState) : Prop :=
  SeenExact st ∧ VisitedSeen st ∧ (visitedNames st.log).Nodup

/-- The states a bounded run of `walkReferencesTracked` passes through: `PassesThrough
getSchema fn fuel st refs st1` says that the run started in state `st` on the list `refs` is
in state `st1` at the start of a loop iteration, or at the end of the loop, of this call or of
a nested call. -/
inductive PassesThrough (getSchema : GetSchema) (fn : RefWalkFn) :
    Nat → WalkState → List SchemaReference → WalkState → Prop where
  | start (fuel : Nat) (st : WalkState) (refs : List SchemaReference) :
      PassesThrough getSchema fn fuel st refs st
  | skip {fuel : Nat} {st st1 : WalkState} {ref : SchemaReference}
      {rest : List SchemaReference} :
      st.seen ref.Name = some ref.Version →
      PassesThrough getSchema fn (fuel + 1) st rest st1 →
      PassesThrough getSchema fn (fuel + 1) st (ref :: rest) st1
  | child {fuel : Nat} {st st1 : WalkState} {ref : SchemaReference}
      {rest : List SchemaReference} {info : SchemaInfo} :
      st.seen ref.Name = none →
      getSchema st.log ref.Subject ref.Version = .ok info →
      fn (logFetched st ref info) ref.Name info = none →
      PassesThrough getSchema fn fuel (stateVisited st ref info) info.References st1 →
      PassesThrough getSchema fn (fuel + 1) st (ref :: rest) st1
  | next {fuel : Nat} {st st1 st3 : WalkState} {ref : SchemaReference}
      {rest : List SchemaReference} {info : SchemaInfo} :
      st.seen ref.Name = none →
      getSchema st.log ref.Subject ref.Version = .ok info →
      fn (logFetched st ref info) ref.Name info = none →
      walkReferencesTracked getSchema fn fuel (stateVisited st ref info) info.References
        = (.done none, st3) →
      PassesThrough getSchema fn (fuel + 1) st3 rest st1 →
      PassesThrough getSchema fn (fuel + 1) st (ref :: rest) st1

/-- Every entry of the `seen` map stems from a reference of `G`. -/
def SeenFrom (G : SchemaReference → Prop) (st : WalkState) : Prop :=
  ∀ n v, st.seen n = some v → ∃ q, G q ∧ q.Name = n ∧ q.Version = v

/-- The entry `n ↦ v` of the `seen` map belongs to a reference of `G` whose schema has all
its references recorded at their own versions. -/
def Expanded (reg : Registry) (G : SchemaReference → Prop) (st : WalkState) (n : String) (v : Int) : Prop :=
  ∃ q, G q ∧ q.Name = n ∧ q.Version = v ∧
    ∀ c ∈ (reg q.Subject q.Version).References, st.seen c.Name = some c.Version

/-! ### Concrete clients used to exercise the transport -/

/-- The JSON document the registry holds for subject `money`, version 1:
`{"id":3,"schemaType":"AVRO","schema":"money","references":[]}`. -/
def moneyJSON : String :=
  "\x7b\x22id\x22:3,\x22schemaType\x22:\x22AVRO\x22,\x22schema\x22:\x22money\x22,"
    ++ "\x22references\x22:[]\x7d"

/-- The decoder of the example clients. It answers as `json.Unmarshal` does on the two
bodies the examples use: the document `moneyJSON` decodes to `moneySchema`, and the body
`not json` is malformed, with the error `json.Unmarshal` reports for it. Bodies the examples
do not use are answered as unsupported. -/
def exampleUnmarshal (b : String) : Except String SchemaInfo :=
  if b = moneyJSON then .ok moneySchema
  else if b = "not json" then
    .error "invalid character \x27o\x27 in literal null (expecting \x27u\x27)"
  else .error "body not covered by the example decoder"

/-- White space as `unicode.IsSpace` defines it: tab, line feed, vertical tab, form feed,
carriage return, space, U+0085, U+00A0, U+1680, U+2000 to U+200A, U+2028, U+2029, U+202F,
U+205F and U+3000. -/
def isSpace (ch : Char) : Bool :=
  (9 ≤ ch.toNat && ch.toNat ≤ 13) || ch.toNat == 32 || ch.toNat == 133 || ch.toNat == 160 ||
    ch.toNat == 5760 || (8192 ≤ ch.toNat && ch.toNat ≤ 8202) || ch.toNat == 8232 ||
    ch.toNat == 8233 || ch.toNat == 8239 || ch.toNat == 8287 || ch.toNat == 12288

/-- The library function `bytes.TrimSpace` on a body of text: all leading and trailing white
space is removed. -/
def exampleTrimSpace (b : String) : String :=
  String.mk ((b.toList.dropWhile isSpace).reverse.dropWhile isSpace).reverse

/-- A client whose every library call succeeds and leaves its argument unchanged, and whose
HTTP client answers according to `send`. -/
def plainClient (send : Nat → AttemptOutcome) : Client :=
  { joinPath := fun p => .ok p
    urlString := fun p => "http://registry" ++ p
    pathUnescape := fun u => .ok u
    newRequest := fun _ _ _ => none
    requestSigner := fun req => .ok req
    send := fun i _ => send i
    trimSpace := exampleTrimSpace
    pathEscape := fun x => x
    quote := fun x => "\x22" ++ x ++ "\x22"
    unmarshal := exampleUnmarshal }

/-- Two connection failures, then a 200 response with the document `moneyJSON`. -/
def flakySend : Nat → AttemptOutcome := fun i =>
  if i < 2 then .connFail "connection refused" else .response 200 moneyJSON none

/-- A client whose request signer rejects every request. -/
def unsignedClient : Client :=
  { plainClient flakySend with requestSigner := fun _ => .error "no credentials" }

/-- An HTTP client that always answers with status 500 and an empty body. -/
def serverErrorSend : Nat → AttemptOutcome := fun _ => .response 500 "" none

/-- One connection failure, then status 503 with a body surrounded by blanks. -/
def busySend : Nat → AttemptOutcome := fun i =>
  if i < 1 then .connFail "connection reset" else .response 503 "  try later  " none

/-- An HTTP client that always answers 404. -/
def absentSend : Nat → AttemptOutcome := fun _ => .response 404 "" none

/-- An HTTP client that always answers 200 with an empty body. -/
def emptySend : Nat → AttemptOutcome := fun _ => .response 200 "" none

/-- An HTTP client that always answers 200 with a body that is not JSON. -/
def malformedSend : Nat → AttemptOutcome := fun _ => .response 200 "not json" none

/-- A client whose request cannot be built: `url.JoinPath` fails. -/
def brokenPathClient : Client :=
  { plainClient flakySend with joinPath := fun _ => .error "invalid URL escape" }

/-- The request `GET /mode` as `plainClient` builds it. -/
def modeRequest : Request :=
  { verb := "GET", url := "http://registry/mode", body := "",
    header := [("Accept", "application/vnd.schemaregistry.v1+json")] }

/-! ## Unfolding lemmas and the induction principle of the walker -/

section Walker

variable (getSchema : GetSchema) (fn : RefWalkFn)

theorem walk_zero (st : WalkState) (refs : List SchemaReference) :
    walkReferencesTracked getSchema fn 0 st refs = (.outOfFuel, st) := rfl

theorem walk_nil (fuel : Nat) (st : WalkState) :
    walkReferencesTracked getSchema fn (fuel + 1) st [] = (.done none, st) := rfl

theorem walk_skip (fuel : Nat) (st : WalkState) (ref : SchemaReference)
    (rest : List SchemaReference) (h : st.seen ref.Name = some ref.Version) :
    walkReferencesTracked getSchema fn (fuel + 1) st (ref :: rest)
      = walkReferencesTracked getSchema fn (fuel + 1) st rest := by
  simp [walkReferencesTracked, walkLoop, h]

theorem walk_mismatch (fuel : Nat) (st : WalkState) (ref : SchemaReference)
    (rest : List SchemaReference) (i : Int) (h : st.seen ref.Name = some i)
    (hne : i ≠ ref.Version) :
    walkReferencesTracked getSchema fn (fuel + 1) st (ref :: rest)
      = (.done (some (mismatchError ref.Name i ref.Version)), st) := by
  simp [walkReferencesTracked, walkLoop, h, hne]

theorem walk_fetchErr (fuel : Nat) (st : WalkState) (ref : SchemaReference)
    (rest : List SchemaReference) (e : String) (h : st.seen ref.Name = none)
    (hf : getSchema st.log ref.Subject ref.Version = .error e) :
    walkReferencesTracked getSchema fn (fuel + 1) st (ref :: rest)
      = (.done (some e),
          { st with log := st.log ++ [.fetch ref.Subject ref.Version (.error e)] }) := by
  simp [walkReferencesTracked, walkLoop, h, hf]

theorem walk_visitErr (fuel : Nat) (st : WalkState) (ref : SchemaReference)
    (rest : List SchemaReference) (info : SchemaInfo) (e : String)
    (h : st.seen ref.Name = none)
    (hf : getSchema st.log ref.Subject ref.Version = .ok info)
    (hv : fn (logFetched st ref info) ref.Name info = some e) :
    walkReferencesTracked getSchema fn (fuel + 1) st (ref :: rest)
      = (.done (some e),
          { st with log := logFetched st ref info ++ [.visit ref info (some e)] }) := by
  simp [walkReferencesTracked, walkLoop, h, hf, hv]

theorem walk_descend_ok (fuel : Nat) (st st3 : WalkState) (ref : SchemaReference)
    (rest : List SchemaReference) (info : SchemaInfo)
    (h : st.seen ref.Name = none)
    (hf : getSchema st.log ref.Subject ref.Version = .ok info)
    (hv : fn (logFetched st ref info) ref.Name info = none)
    (hr : walkReferencesTracked getSchema fn fuel (stateVisited st ref info) info.References
      = (.done none, st3)) :
    walkReferencesTracked getSchema fn (fuel + 1) st (ref :: rest)
      = walkReferencesTracked getSchema fn (fuel + 1) st3 rest := by
  simp [walkReferencesTracked, walkLoop, h, hf, hv, hr]

theorem walk_descend_stop (fuel : Nat) (st st3 : WalkState) (ref : SchemaReference)
    (rest : List SchemaReference) (info : SchemaInfo) (out : Outcome)
    (h : st.seen ref.Name = none)
    (hf : getSchema st.log ref.Subject ref.Version = .ok info)
    (hv : fn (logFetched st ref info) ref.Name info = none)
    (hr : walkReferencesTracked getSchema fn fuel (stateVisited st ref info) info.References
      = (out, st3))
    (hout : out ≠ .done none) :
    walkReferencesTracked getSchema fn (fuel + 1) st (ref :: rest) = (out, st3) := by
  cases out with
  | outOfFuel => simp [walkReferencesTracked, walkLoop, h, hf, hv, hr]
  | done err =>
    cases err with
    | none => exact absurd rfl hout
    | some e => simp [walkReferencesTracked, walkLoop, h, hf, hv, hr]

/-- Induction principle following the control flow of `walkReferencesTracked`: one case per
way a bounded run can proceed. -/
theorem walk_induction
    (P : Nat → WalkState → List SchemaReference → Outcome × WalkState → Prop)
    (zero : ∀ st refs, P 0 st refs (.outOfFuel, st))
    (nil : ∀ fuel st, P (fuel + 1) st [] (.done none, st))
    (skip : ∀ fuel st ref rest, st.seen ref.Name = some ref.Version →
      P (fuel + 1) st rest (walkReferencesTracked getSchema fn (fuel + 1) st rest) →
      P (fuel + 1) st (ref :: rest) (walkReferencesTracked getSchema fn (fuel + 1) st rest))
    (mismatch : ∀ fuel st ref rest i, st.seen ref.Name = some i → i ≠ ref.Version →
      P (fuel + 1) st (ref :: rest) (.done (some (mismatchError ref.Name i ref.Version)), st))
    (fetchErr : ∀ fuel st ref rest e, st.seen ref.Name = none →
      getSchema st.log ref.Subject ref.Version = .error e →
      P (fuel + 1) st (ref :: rest) (.done (some e),
        { st with log := st.log ++ [.fetch ref.Subject ref.Version (.error e)] }))
    (visitErr : ∀ fuel st ref rest info e, st.seen ref.Name = none →
      getSchema st.log ref.Subject ref.Version = .ok info →
      fn (logFetched st ref info) ref.Name info = some e →
      P (fuel + 1) st (ref :: rest) (.done (some e),
        { st with log := logFetched st ref info ++ [.visit ref info (some e)] }))
    (stop : ∀ fuel st ref rest info out st3, st.seen ref.Name = none →
      getSchema st.log ref.Subject ref.Version = .ok info →
      fn (logFetched st ref info) ref.Name info = none →
      walkReferencesTracked getSchema fn fuel (stateVisited st ref info) info.References
        = (out, st3) →
      out ≠ .done none →
      P fuel (stateVisited st ref info) info.References (out, st3) →
      P (fuel + 1) st (ref :: rest) (out, st3))
    (descend : ∀ fuel st ref rest info st3, st.seen ref.Name = none →
      getSchema st.log ref.Subject ref.Version = .ok info →
      fn (logFetched st ref info) ref.Name info = none →
      walkReferencesTracked getSchema fn fuel (stateVisited st ref info) info.References
        = (.done none, st3) →
      P fuel (stateVisited st ref info) info.References (.done none, st3) →
      P (fuel + 1) st3 rest (walkReferencesTracked getSchema fn (fuel + 1) st3 rest) →
      P (fuel + 1) st (ref :: rest) (walkReferencesTracked getSchema fn (fuel + 1) st3 rest)) :
    ∀ fuel st refs, P fuel st refs (walkReferencesTracked getSchema fn fuel st refs) := by
  intro fuel
  induction fuel with
  | zero => intro st refs; exact zero st refs
  | succ fuel ih =>
    intro st refs
    induction refs generalizing st with
    | nil => exact nil fuel st
    | cons ref rest ihr =>
      cases hs : st.seen ref.Name with
      | some i =>
        by_cases hi : i = ref.Version
        · subst hi
          rw [walk_skip getSchema fn fuel st ref rest hs]
          exact skip fuel st ref rest hs (ihr st)
        · rw [walk_mismatch getSchema fn fuel st ref rest i hs hi]
          exact mismatch fuel st ref rest i hs hi
      | none =>
        cases hf : getSchema st.log ref.Subject ref.Version with
        | error e =>
          rw [walk_fetchErr getSchema fn fuel st ref rest e hs hf]
          exact fetchErr fuel st ref rest e hs hf
        | ok info =>
          cases hv : fn (logFetched st ref info) ref.Name info with
          | some e =>
            rw [walk_visitErr getSchema fn fuel st ref rest info e hs hf hv]
            exact visitErr fuel st ref rest info e hs hf hv
          | none =>
            cases hr : walkReferencesTracked getSchema fn fuel (stateVisited st ref info)
              info.References with
            | mk out st3 =>
              by_cases hout : out = .done none
              · subst hout
                rw [walk_descend_ok getSchema fn fuel st st3 ref rest info hs hf hv hr]
                exact descend fuel st ref rest info st3 hs hf hv hr
                  (hr ▸ ih (stateVisited st ref info) info.References) (ihr st3)
              · rw [walk_descend_stop getSchema fn fuel st st3 ref rest info out hs hf hv hr hout]
                exact stop fuel st ref rest info out st3 hs hf hv hr hout
                  (hr ▸ ih (stateVisited st ref info) info.References)

end Walker

/-! ## General facts about every bounded run -/

section General

variable (getSchema : GetSchema) (fn : RefWalkFn)

/-- A run only appends to the history. -/
theorem walk_log_prefix (fuel : Nat) (st : WalkState) (refs : List SchemaReference) :
    ∃ new, (walkReferencesTracked getSchema fn fuel st refs).2.log = st.log ++ new := by
  refine walk_induction getSchema fn
    (fun _ st _ res => ∃ new, res.2.log = st.log ++ new) ?_ ?_ ?_ ?_ ?_ ?_ ?_ ?_ fuel st refs
  · intro st _; exact ⟨[], by simp⟩
  · intro _ st; exact ⟨[], by simp⟩
  · intro _ _ _ _ _ ih; exact ih
  · intro _ st _ _ _ _ _; exact ⟨[], by simp⟩
  · intro _ st ref _ e _ _; exact ⟨_, rfl⟩
  · intro _ st ref _ info e _ _ _
    exact ⟨[.fetch ref.Subject ref.Version (.ok info), .visit ref info (some e)],
      by simp [logFetched]⟩
  · intro _ st ref _ info _ st3 _ _ _ _ _ ih
    obtain ⟨new, hnew⟩ := ih
    refine ⟨[.fetch ref.Subject ref.Version (.ok info), .visit ref info none] ++ new, ?_⟩
    rw [show st3.log = _ from hnew]
    simp [stateVisited, logFetched]
  · intro _ st ref _ info st3 _ _ _ _ ih1 ih2
    obtain ⟨new1, h1⟩ := ih1
    obtain ⟨new2, h2⟩ := ih2
    refine ⟨[.fetch ref.Subject ref.Version (.ok info), .visit ref info none] ++ new1 ++ new2, ?_⟩
    rw [h2, show st3.log = _ from h1]
    simp [stateVisited, logFetched]

/-- An entry of the `seen` map is never removed nor overwritten by a run. -/
theorem walk_seen_mono (fuel : Nat) (st : WalkState) (refs : List SchemaReference)
    (n : String) (v : Int) (h : st.seen n = some v) :
    (walkReferencesTracked getSchema fn fuel st refs).2.seen n = some v := by
  revert h
  refine walk_induction getSchema fn
    (fun _ st _ res => st.seen n = some v → res.2.seen n = some v)
    ?_ ?_ ?_ ?_ ?_ ?_ ?_ ?_ fuel st refs
  · intro _ _ h; exact h
  · intro _ _ h; exact h
  · intro _ _ _ _ _ ih h; exact ih h
  · intro _ _ _ _ _ _ _ h; exact h
  · intro _ _ _ _ _ _ _ h; exact h
  · intro _ _ _ _ _ _ _ _ _ h; exact h
  · intro _ st ref _ info _ _ hs _ _ _ _ ih h
    apply ih
    have hne : n ≠ ref.Name := by
      intro hn; rw [hn, hs] at h; exact Option.noConfusion h
    simp [stateVisited, seenSet, hne, h]
  · intro _ st ref _ info _ hs _ _ _ ih1 ih2 h
    apply ih2
    apply ih1
    have hne : n ≠ ref.Name := by
      intro hn; rw [hn, hs] at h; exact Option.noConfusion h
    simp [stateVisited, seenSet, hne, h]

theorem abortsAt_nil (out : Outcome) : AbortsAt [] out := by
  intro pre ev post e h _
  exact absurd h (by simp)

theorem abortsAt_single (ev : Event) (out : Outcome)
    (h : ∀ e, ev.failure = some e → out = .done (some e)) : AbortsAt [ev] out := by
  intro pre ev2 post e heq hf
  cases pre with
  | nil =>
    simp only [List.nil_append, List.cons.injEq] at heq
    obtain ⟨h1, h2⟩ := heq
    subst h1
    exact ⟨h2.symm, h e hf⟩
  | cons a pre => simp at heq

theorem abortsAt_append (A B : List Event) (out : Outcome)
    (hA : ∀ ev ∈ A, ev.failure = none) (hB : AbortsAt B out) : AbortsAt (A ++ B) out := by
  intro pre ev post e heq hf
  rcases List.append_eq_append_iff.mp heq with ⟨a, _, h2⟩ | ⟨c, h1, h2⟩
  · exact hB a ev post e h2 hf
  · cases c with
    | nil => exact hB [] ev post e (by simpa using h2.symm) hf
    | cons x c =>
      simp only [List.cons_append, List.cons.injEq] at h2
      have hmem : ev ∈ A := by rw [h1, h2.1]; simp
      rw [hA ev hmem] at hf
      exact Option.noConfusion hf

theorem abortsAt_ok_no_failure (new : List Event) (h : AbortsAt new (.done none)) :
    ∀ ev ∈ new, ev.failure = none := by
  intro ev hmem
  obtain ⟨pre, post, hsplit⟩ := List.append_of_mem hmem
  cases hf : ev.failure with
  | none => rfl
  | some e =>
    have := (h pre ev post e hsplit hf).2
    simp at this

/-- The part of the history added by a run contains at most one failed interaction, which is
then its last element and supplies the returned error. -/
theorem walk_aborts (fuel : Nat) (st : WalkState) (refs : List SchemaReference) :
    ∃ new, (walkReferencesTracked getSchema fn fuel st refs).2.log = st.log ++ new ∧
      AbortsAt new (walkReferencesTracked getSchema fn fuel st refs).1 := by
  refine walk_induction getSchema fn
    (fun _ st _ res => ∃ new, res.2.log = st.log ++ new ∧ AbortsAt new res.1)
    ?_ ?_ ?_ ?_ ?_ ?_ ?_ ?_ fuel st refs
  · intro st _; exact ⟨[], by simp, abortsAt_nil _⟩
  · intro _ st; exact ⟨[], by simp, abortsAt_nil _⟩
  · intro _ _ _ _ _ ih; exact ih
  · intro _ st _ _ _ _ _; exact ⟨[], by simp, abortsAt_nil _⟩
  · intro _ st ref _ e _ _
    refine ⟨[.fetch ref.Subject ref.Version (.error e)], rfl, abortsAt_single _ _ ?_⟩
    intro e2 h2
    simp only [Event.failure, Option.some.injEq] at h2
    rw [h2]
  · intro _ st ref _ info e _ _ _
    refine ⟨[.fetch ref.Subject ref.Version (.ok info)] ++ [.visit ref info (some e)],
      by simp [logFetched], abortsAt_append _ _ _ ?_ (abortsAt_single _ _ ?_)⟩
    · intro ev hev
      simp only [List.mem_singleton] at hev
      subst hev; rfl
    · intro e2 h2
      simp only [Event.failure, Option.some.injEq] at h2
      rw [h2]
  · intro _ st ref _ info out st3 _ _ _ _ _ ih
    obtain ⟨new, hnew, hab⟩ := ih
    refine ⟨[.fetch ref.Subject ref.Version (.ok info), .visit ref info none] ++ new, ?_,
      abortsAt_append _ _ _ ?_ hab⟩
    · rw [show st3.log = _ from hnew]
      simp [stateVisited, logFetched]
    · intro ev hev
      simp only [List.mem_cons, List.mem_singleton, List.not_mem_nil, or_false] at hev
      rcases hev with h | h <;> subst h <;> rfl
  · intro _ st ref _ info st3 _ _ _ _ ih1 ih2
    obtain ⟨new1, h1, hab1⟩ := ih1
    obtain ⟨new2, h2, hab2⟩ := ih2
    refine ⟨([.fetch ref.Subject ref.Version (.ok info), .visit ref info none] ++ new1) ++ new2,
      ?_, abortsAt_append _ _ _ ?_ hab2⟩
    · rw [h2, show st3.log = _ from h1]
      simp [stateVisited, logFetched]
    · intro ev hev
      rcases List.mem_append.mp hev with h | h
      · simp only [List.mem_cons, List.mem_singleton, List.not_mem_nil, or_false] at h
        rcases h with h | h <;> subst h <;> rfl
      · exact abortsAt_ok_no_failure new1 hab1 ev h

theorem visitedNames_append (a b : List Event) :
    visitedNames (a ++ b) = visitedNames a ++ visitedNames b := by
  induction a with
  | nil => rfl
  | cons ev a ih =>
    cases ev with
    | fetch s v r => simpa [visitedNames] using ih
    | visit ref info r => simpa [visitedNames] using ih

theorem visitedNames_visited (st : WalkState) (ref : SchemaReference) (info : SchemaInfo) :
    visitedNames (stateVisited st ref info).log = visitedNames st.log ++ [ref.Name] := by
  simp [stateVisited, logFetched, visitedNames_append, visitedNames]

theorem mem_visitedNames (log : List Event) (n : String) :
    n ∈ visitedNames log ↔ ∃ ref info res, Event.visit ref info res ∈ log ∧ ref.Name = n := by
  induction log with
  | nil => simp [visitedNames]
  | cons ev log ih =>
    cases ev with
    | fetch s v r =>
      simp only [visitedNames, ih, List.mem_cons, reduceCtorEq, false_or]
    | visit ref info r =>
      simp only [visitedNames, List.mem_cons, ih, Event.visit.injEq]
      constructor
      · rintro (h | ⟨ref2, info2, res2, h1, h2⟩)
        · exact ⟨ref, info, r, Or.inl ⟨rfl, rfl, rfl⟩, h.symm⟩
        · exact ⟨ref2, info2, res2, Or.inr h1, h2⟩
      · rintro ⟨ref2, info2, res2, (⟨h1, _, _⟩ | h1), h2⟩
        · left; rw [← h2, h1]
        · exact Or.inr ⟨ref2, info2, res2, h1, h2⟩

theorem seenExact_of_log_fetch (st : WalkState) (ev : Event) (hev : ∀ ref info, ev ≠ .visit ref info none)
    (h : SeenExact st) : SeenExact { st with log := st.log ++ [ev] } := by
  intro n v
  rw [h n v]
  constructor
  · rintro ⟨ref, info, hm, h1, h2⟩
    exact ⟨ref, info, List.mem_append_left _ hm, h1, h2⟩
  · rintro ⟨ref, info, hm, h1, h2⟩
    rcases List.mem_append.mp hm with hm | hm
    · exact ⟨ref, info, hm, h1, h2⟩
    · simp only [List.mem_singleton] at hm
      exact absurd hm.symm (hev ref info)

theorem seenExact_visited (st : WalkState) (ref : SchemaReference) (info : SchemaInfo)
    (hs : st.seen ref.Name = none) (h : SeenExact st) : SeenExact (stateVisited st ref info) := by
  intro n v
  simp only [stateVisited, logFetched, seenSet, List.append_assoc, List.singleton_append,
    List.mem_append, List.mem_cons, List.not_mem_nil, or_false, Event.visit.injEq, and_true]
  by_cases hn : n = ref.Name
  · subst hn
    simp only [if_true, Option.some.injEq]
    constructor
    · intro hv
      exact ⟨ref, info, Or.inr (Or.inr ⟨rfl, rfl⟩), rfl, hv⟩
    · rintro ⟨ref2, info2, (hm | hm | ⟨h1, _⟩), h2, h3⟩
      · have := (h ref.Name v).mpr ⟨ref2, info2, hm, h2, h3⟩
        rw [hs] at this; exact Option.noConfusion this
      · exact Event.noConfusion hm
      · rw [← h3, h1]
  · simp only [hn, if_false]
    rw [h n v]
    constructor
    · rintro ⟨ref2, info2, hm, h2, h3⟩
      exact ⟨ref2, info2, Or.inl hm, h2, h3⟩
    · rintro ⟨ref2, info2, (hm | hm | ⟨h1, _⟩), h2, h3⟩
      · exact ⟨ref2, info2, hm, h2, h3⟩
      · exact Event.noConfusion hm
      · exact absurd (by rw [← h2, h1]) hn

/-- The invariant of the `seen` map is kept by every run, also by one that ends in an error
or is cut by the depth bound. -/
theorem walk_seen_inv (fuel : Nat) (st : WalkState) (refs : List SchemaReference)
    (h1 : SeenExact st) (h2 : VisitedSeen st) (h3 : (visitedNames st.log).Nodup) :
    SeenExact (walkReferencesTracked getSchema fn fuel st refs).2 ∧
    (visitedNames (walkReferencesTracked getSchema fn fuel st refs).2.log).Nodup ∧
    ((∀ e, (walkReferencesTracked getSchema fn fuel st refs).1 ≠ .done (some e)) →
      VisitedSeen (walkReferencesTracked getSchema fn fuel st refs).2) := by
  revert h1 h2 h3
  refine walk_induction getSchema fn
    (fun _ st _ res => SeenExact st → VisitedSeen st → (visitedNames st.log).Nodup →
      SeenExact res.2 ∧ (visitedNames res.2.log).Nodup ∧
      ((∀ e, res.1 ≠ .done (some e)) → VisitedSeen res.2))
    ?_ ?_ ?_ ?_ ?_ ?_ ?_ ?_ fuel st refs
  · intro _ _ h1 h2 h3; exact ⟨h1, h3, fun _ => h2⟩
  · intro _ _ h1 h2 h3; exact ⟨h1, h3, fun _ => h2⟩
  · intro _ _ _ _ _ ih h1 h2 h3; exact ih h1 h2 h3
  · intro _ _ _ _ _ _ _ h1 h2 h3; exact ⟨h1, h3, fun _ => h2⟩
  · intro _ st ref _ e _ _ h1 h2 h3
    refine ⟨seenExact_of_log_fetch st _ (fun _ _ => by simp) h1, ?_, fun h => absurd rfl (h e)⟩
    simpa [visitedNames_append, visitedNames] using h3
  · intro _ st ref _ info e hs _ _ h1 h2 h3
    refine ⟨?_, ?_, fun h => absurd rfl (h e)⟩
    · have := seenExact_of_log_fetch
        { st with log := logFetched st ref info } (.visit ref info (some e))
        (fun _ _ => by simp)
        (seenExact_of_log_fetch st _ (fun _ _ => by simp) h1)
      exact this
    · simp only [logFetched, visitedNames_append, visitedNames, List.append_nil]
      rw [List.nodup_append]
      refine ⟨h3, by simp, ?_⟩
      intro a ha hb
      simp only [List.mem_singleton] at hb
      subst hb
      exact h2 _ ha hs
  · intro _ st ref _ info out st3 hs _ _ _ _ ih h1 h2 h3
    apply ih (seenExact_visited st ref info hs h1)
    · intro n hn
      rw [visitedNames_visited] at hn
      simp only [stateVisited, seenSet]
      by_cases hne : n = ref.Name
      · simp [hne]
      · simp only [hne, if_false]
        rcases List.mem_append.mp hn with hn | hn
        · exact h2 n hn
        · simp only [List.mem_singleton] at hn; exact absurd hn hne
    · rw [visitedNames_visited, List.nodup_append]
      refine ⟨h3, by simp, ?_⟩
      intro a ha hb
      simp only [List.mem_singleton] at hb
      subst hb
      exact h2 _ ha hs
  · intro _ st ref _ info st3 hs _ _ _ ih1 ih2 h1 h2 h3
    have hA := ih1 (seenExact_visited st ref info hs h1) (by
      intro n hn
      rw [visitedNames_visited] at hn
      simp only [stateVisited, seenSet]
      by_cases hne : n = ref.Name
      · simp [hne]
      · simp only [hne, if_false]
        rcases List.mem_append.mp hn with hn | hn
        · exact h2 n hn
        · simp only [List.mem_singleton] at hn; exact absurd hn hne) (by
      rw [visitedNames_visited, List.nodup_append]
      refine ⟨h3, by simp, ?_⟩
      intro a ha hb
      simp only [List.mem_singleton] at hb
      subst hb
      exact h2 _ ha hs)
    exact ih2 hA.1 (hA.2.2 (fun e => by simp)) hA.2.1

/-- A run that returned keeps its result and its final state under any larger depth bound. -/
theorem walk_fuel_succ (fuel : Nat) (st : WalkState) (refs : List SchemaReference)
    (h : (walkReferencesTracked getSchema fn fuel st refs).1 ≠ .outOfFuel) :
    walkReferencesTracked getSchema fn (fuel + 1) st refs
      = walkReferencesTracked getSchema fn fuel st refs := by
  revert h
  refine walk_induction getSchema fn
    (fun fuel st refs res => res.1 ≠ .outOfFuel →
      walkReferencesTracked getSchema fn (fuel + 1) st refs = res)
    ?_ ?_ ?_ ?_ ?_ ?_ ?_ ?_ fuel st refs
  · intro _ _ h; exact absurd rfl h
  · intro _ _ _; rfl
  · intro fuel st ref rest hs ih h
    rw [walk_skip getSchema fn (fuel + 1) st ref rest hs]
    exact ih h
  · intro fuel st ref rest i hs hne _
    exact walk_mismatch getSchema fn (fuel + 1) st ref rest i hs hne
  · intro fuel st ref rest e hs hf _
    exact walk_fetchErr getSchema fn (fuel + 1) st ref rest e hs hf
  · intro fuel st ref rest info e hs hf hv _
    exact walk_visitErr getSchema fn (fuel + 1) st ref rest info e hs hf hv
  · intro fuel st ref rest info out st3 hs hf hv _ hout ih h
    exact walk_descend_stop getSchema fn (fuel + 1) st st3 ref rest info out hs hf hv (ih h) hout
  · intro fuel st ref rest info st3 hs hf hv _ ih1 ih2 h
    rw [walk_descend_ok getSchema fn (fuel + 1) st st3 ref rest info hs hf hv
      (ih1 (by simp))]
    exact ih2 h

theorem walk_fuel_mono (fuel more : Nat) (st : WalkState) (refs : List SchemaReference)
    (h : (walkReferencesTracked getSchema fn fuel st refs).1 ≠ .outOfFuel) :
    walkReferencesTracked getSchema fn (fuel + more) st refs
      = walkReferencesTracked getSchema fn fuel st refs := by
  induction more with
  | zero => rfl
  | succ more ih =>
    rw [← Nat.add_assoc, walk_fuel_succ getSchema fn (fuel + more) st refs (by rw [ih]; exact h)]
    exact ih

end General

/-! ## Termination on a finite graph -/

section Termination

variable (getSchema : GetSchema) (fn : RefWalkFn)

theorem unseenCount_mono (U : Finset String) (s1 s2 : String → Option Int)
    (h : ∀ n v, s1 n = some v → s2 n = some v) : unseenCount U s2 ≤ unseenCount U s1 := by
  apply Finset.card_le_card
  intro n hn
  simp only [Finset.mem_filter] at hn ⊢
  refine ⟨hn.1, ?_⟩
  cases h1 : s1 n with
  | none => rfl
  | some v => rw [h n v h1] at hn; exact Option.noConfusion hn.2

theorem unseenCount_seenSet (U : Finset String) (seen : String → Option Int) (n : String)
    (v : Int) (hn : n ∈ U) (hs : seen n = none) :
    unseenCount U (seenSet seen n v) < unseenCount U seen := by
  apply Finset.card_lt_card
  rw [Finset.ssubset_iff_of_subset]
  · refine ⟨n, by simp [hn, hs], by simp [seenSet]⟩
  · intro m hm
    simp only [Finset.mem_filter, seenSet] at hm ⊢
    refine ⟨hm.1, ?_⟩
    by_cases hmn : m = n
    · simp [hmn] at hm
    · simpa [hmn] using hm.2

/-- A run never reaches the depth bound when the bound exceeds the number of names that are
still unseen, provided every reference it can meet lies in a set `G` that is closed under
the reference lists of fetched schemas and whose names all belong to the finite set `U`. -/
theorem walk_terminates (G : SchemaReference → Prop) (U : Finset String)
    (hclosed : ∀ p, G p → ∀ log info, getSchema log p.Subject p.Version = .ok info →
      ∀ c ∈ info.References, G c)
    (hU : ∀ p, G p → p.Name ∈ U)
    (fuel : Nat) (st : WalkState) (refs : List SchemaReference)
    (hrefs : ∀ r ∈ refs, G r) (hfuel : unseenCount U st.seen < fuel) :
    (walkReferencesTracked getSchema fn fuel st refs).1 ≠ .outOfFuel := by
  revert hrefs hfuel
  refine walk_induction getSchema fn
    (fun fuel st refs res => (∀ r ∈ refs, G r) → unseenCount U st.seen < fuel →
      res.1 ≠ .outOfFuel)
    ?_ ?_ ?_ ?_ ?_ ?_ ?_ ?_ fuel st refs
  · intro _ _ _ h; exact absurd h (Nat.not_lt_zero _)
  · intro _ _ _ _; simp
  · intro _ _ ref rest _ ih hrefs hfuel
    exact ih (fun r hr => hrefs r (List.mem_cons_of_mem _ hr)) hfuel
  · intro _ _ _ _ _ _ _ _ _; simp
  · intro _ _ _ _ _ _ _ _ _; simp
  · intro _ _ _ _ _ _ _ _ _ _ _; simp
  · intro fuel st ref rest info out st3 hs hf _ _ _ ih hrefs hfuel
    have hG : G ref := hrefs ref (List.mem_cons_self _ _)
    apply ih (hclosed ref hG st.log info hf)
    have := unseenCount_seenSet U st.seen ref.Name ref.Version (hU ref hG) hs
    simp only [stateVisited]
    omega
  · intro fuel st ref rest info st3 hs hf _ hr _ ih2 hrefs hfuel
    have hG : G ref := hrefs ref (List.mem_cons_self _ _)
    apply ih2 (fun r hr => hrefs r (List.mem_cons_of_mem _ hr))
    have h1 := unseenCount_seenSet U st.seen ref.Name ref.Version (hU ref hG) hs
    have h2 : unseenCount U st3.seen ≤ unseenCount U (stateVisited st ref info).seen := by
      apply unseenCount_mono
      intro n v hn
      have := walk_seen_mono getSchema fn fuel (stateVisited st ref info) info.References n v hn
      rw [hr] at this
      exact this
    simp only [stateVisited] at h2
    omega

end Termination

/-! ## Walks over a registry whose fetches succeed, with a visitor that succeeds -/

section RegistryWalk

variable (reg : Registry) (fn : RefWalkFn)

theorem registry_getSchema_ok {log : List Event} {s : String} {v : Int} {info : SchemaInfo}
    (h : reg.getSchema log s v = .ok info) : info = reg s v := by
  simp only [Registry.getSchema, Except.ok.injEq] at h
  exact h.symm

theorem reach_children {refs : List SchemaReference} {p : SchemaReference}
    (hp : Reach reg refs p) (log : List Event) (info : SchemaInfo)
    (h : reg.getSchema log p.Subject p.Version = .ok info) :
    ∀ c ∈ info.References, Reach reg refs c := by
  intro c hc
  rw [registry_getSchema_ok reg h] at hc
  exact Reach.step hp hc

theorem seenFrom_visited (G : SchemaReference → Prop) (st : WalkState) (ref : SchemaReference)
    (info : SchemaInfo) (hG : G ref) (h : SeenFrom G st) :
    SeenFrom G (stateVisited st ref info) := by
  intro n v hn
  simp only [stateVisited, seenSet] at hn
  by_cases hne : n = ref.Name
  · simp only [hne, if_true, Option.some.injEq] at hn
    exact ⟨ref, hG, hne.symm, hn⟩
  · simp only [hne, if_false] at hn
    exact h n v hn

/-- Over a registry and with a visitor that always succeeds, a run in a closed set `G` of
references in which a name has one version never returns an error. -/
theorem walk_no_error (hfn : ∀ log n i, fn log n i = none) (G : SchemaReference → Prop)
    (hclosed : ∀ p, G p → ∀ c ∈ (reg p.Subject p.Version).References, G c)
    (hcons : ∀ r1 r2, G r1 → G r2 → r1.Name = r2.Name → r1.Version = r2.Version)
    (fuel : Nat) (st : WalkState) (refs : List SchemaReference)
    (hrefs : ∀ r ∈ refs, G r) (hseen : SeenFrom G st) :
    (∀ e, (walkReferencesTracked reg.getSchema fn fuel st refs).1 ≠ .done (some e)) ∧
      SeenFrom G (walkReferencesTracked reg.getSchema fn fuel st refs).2 := by
  revert hrefs hseen
  refine walk_induction reg.getSchema fn
    (fun _ st refs res => (∀ r ∈ refs, G r) → SeenFrom G st →
      (∀ e, res.1 ≠ .done (some e)) ∧ SeenFrom G res.2)
    ?_ ?_ ?_ ?_ ?_ ?_ ?_ ?_ fuel st refs
  · intro _ _ _ h; exact ⟨fun e => by simp, h⟩
  · intro _ _ _ h; exact ⟨fun e => by simp, h⟩
  · intro _ _ ref rest _ ih hrefs h
    exact ih (fun r hr => hrefs r (List.mem_cons_of_mem _ hr)) h
  · intro _ st ref rest i hs hne hrefs h
    obtain ⟨q, hq, hqn, hqv⟩ := h _ _ hs
    exact absurd (hqv ▸ hcons q ref hq (hrefs ref (List.mem_cons_self _ _)) hqn) hne
  · intro _ _ _ _ e _ hf _ _
    simp [Registry.getSchema] at hf
  · intro _ st ref _ info e _ _ hv _ _
    rw [hfn] at hv
    exact Option.noConfusion hv
  · intro _ st ref rest info out st3 _ hf _ _ _ ih hrefs h
    have hG : G ref := hrefs ref (List.mem_cons_self _ _)
    apply ih
    · intro c hc
      rw [registry_getSchema_ok reg hf] at hc
      exact hclosed ref hG c hc
    · exact seenFrom_visited G st ref info hG h
  · intro _ st ref rest info st3 _ hf _ _ ih1 ih2 hrefs h
    have hG : G ref := hrefs ref (List.mem_cons_self _ _)
    apply ih2 (fun r hr => hrefs r (List.mem_cons_of_mem _ hr))
    refine (ih1 ?_ (seenFrom_visited G st ref info hG h)).2
    intro c hc
    rw [registry_getSchema_ok reg hf] at hc
    exact hclosed ref hG c hc

/-- Over a registry and with a visitor that always succeeds, the only error a run can return
is the version mismatch of a reference it examined against the recorded version. -/
theorem walk_error_is_mismatch (hfn : ∀ log n i, fn log n i = none) (G : SchemaReference → Prop)
    (hclosed : ∀ p, G p → ∀ c ∈ (reg p.Subject p.Version).References, G c)
    (fuel : Nat) (st : WalkState) (refs : List SchemaReference)
    (hrefs : ∀ r ∈ refs, G r) (e : String)
    (he : (walkReferencesTracked reg.getSchema fn fuel st refs).1 = .done (some e)) :
    ∃ ref i, G ref ∧ (walkReferencesTracked reg.getSchema fn fuel st refs).2.seen ref.Name = some i
      ∧ i ≠ ref.Version ∧ e = mismatchError ref.Name i ref.Version := by
  revert hrefs he
  refine walk_induction reg.getSchema fn
    (fun _ _ refs res => (∀ r ∈ refs, G r) → res.1 = .done (some e) →
      ∃ ref i, G ref ∧ res.2.seen ref.Name = some i ∧ i ≠ ref.Version
        ∧ e = mismatchError ref.Name i ref.Version)
    ?_ ?_ ?_ ?_ ?_ ?_ ?_ ?_ fuel st refs
  · intro _ _ _ h; simp at h
  · intro _ _ _ h; simp at h
  · intro _ _ ref rest _ ih hrefs h
    exact ih (fun r hr => hrefs r (List.mem_cons_of_mem _ hr)) h
  · intro _ st ref rest i hs hne hrefs h
    simp only [Outcome.done.injEq, Option.some.injEq] at h
    exact ⟨ref, i, hrefs ref (List.mem_cons_self _ _), hs, hne, h.symm⟩
  · intro _ _ _ _ e _ hf _ _
    simp [Registry.getSchema] at hf
  · intro _ st ref _ info e _ _ hv _ _
    rw [hfn] at hv
    exact Option.noConfusion hv
  · intro _ st ref rest info out st3 _ hf _ _ _ ih hrefs h
    have hG : G ref := hrefs ref (List.mem_cons_self _ _)
    apply ih _ h
    intro c hc
    rw [registry_getSchema_ok reg hf] at hc
    exact hclosed ref hG c hc
  · intro _ st ref rest info st3 _ hf _ _ _ ih2 hrefs h
    exact ih2 (fun r hr => hrefs r (List.mem_cons_of_mem _ hr)) h

/-- After a successful run every reference of the list is recorded at its own version, and
every entry the run added belongs to a reference whose children are recorded as well. -/
theorem walk_closed (G : SchemaReference → Prop)
    (hclosed : ∀ p, G p → ∀ c ∈ (reg p.Subject p.Version).References, G c)
    (fuel : Nat) (st : WalkState) (refs : List SchemaReference)
    (hrefs : ∀ r ∈ refs, G r)
    (hok : (walkReferencesTracked reg.getSchema fn fuel st refs).1 = .done none) :
    (∀ r ∈ refs, (walkReferencesTracked reg.getSchema fn fuel st refs).2.seen r.Name
        = some r.Version) ∧
    (∀ n v, (walkReferencesTracked reg.getSchema fn fuel st refs).2.seen n = some v →
      st.seen n = some v ∨
        Expanded reg G (walkReferencesTracked reg.getSchema fn fuel st refs).2 n v) := by
  revert hrefs hok
  refine walk_induction reg.getSchema fn
    (fun _ st refs res => (∀ r ∈ refs, G r) → res.1 = .done none →
      (∀ r ∈ refs, res.2.seen r.Name = some r.Version) ∧
      (∀ n v, res.2.seen n = some v → st.seen n = some v ∨ Expanded reg G res.2 n v))
    ?_ ?_ ?_ ?_ ?_ ?_ ?_ ?_ fuel st refs
  · intro _ _ _ h; simp at h
  · intro _ _ _ _; exact ⟨fun r hr => by simp at hr, fun n v h => Or.inl h⟩
  · intro fuel st ref rest hs ih hrefs h
    obtain ⟨h1, h2⟩ := ih (fun r hr => hrefs r (List.mem_cons_of_mem _ hr)) h
    refine ⟨?_, h2⟩
    intro r hr
    rcases List.mem_cons.mp hr with hr | hr
    · subst hr
      exact walk_seen_mono reg.getSchema fn (fuel + 1) st rest _ _ hs
    · exact h1 r hr
  · intro _ _ _ _ _ _ _ _ h; simp at h
  · intro _ _ _ _ _ _ _ _ h; simp at h
  · intro _ _ _ _ _ _ _ _ _ _ h; simp at h
  · intro _ _ _ _ _ out _ _ _ _ _ hout _ _ h
    exact absurd h hout
  · intro fuel st ref rest info st3 hs hf _ hr ih1 ih2 hrefs h
    have hG : G ref := hrefs ref (List.mem_cons_self _ _)
    have hinfo := registry_getSchema_ok reg hf
    obtain ⟨k1, k2⟩ := ih1 (fun c hc => by
      rw [hinfo] at hc
      exact hclosed ref hG c hc) rfl
    obtain ⟨m1, m2⟩ := ih2 (fun r hr => hrefs r (List.mem_cons_of_mem _ hr)) h
    have mono3 : ∀ n v, st3.seen n = some v →
        (walkReferencesTracked reg.getSchema fn (fuel + 1) st3 rest).2.seen n = some v :=
      fun n v hn => walk_seen_mono reg.getSchema fn (fuel + 1) st3 rest n v hn
    have mono2 : ∀ n v, (stateVisited st ref info).seen n = some v → st3.seen n = some v := by
      intro n v hn
      have := walk_seen_mono reg.getSchema fn fuel (stateVisited st ref info) info.References
        n v hn
      rw [hr] at this
      exact this
    have hself : (stateVisited st ref info).seen ref.Name = some ref.Version := by
      simp [stateVisited, seenSet]
    have hexp : ∀ n v, Expanded reg G st3 n v →
        Expanded reg G (walkReferencesTracked reg.getSchema fn (fuel + 1) st3 rest).2 n v := by
      rintro n v ⟨q, hq, hqn, hqv, hkids⟩
      exact ⟨q, hq, hqn, hqv, fun c hc => mono3 _ _ (hkids c hc)⟩
    refine ⟨?_, ?_⟩
    · intro r hr
      rcases List.mem_cons.mp hr with hr | hr
      · subst hr
        exact mono3 _ _ (mono2 _ _ hself)
      · exact m1 r hr
    · intro n v hn
      rcases m2 n v hn with h3 | h3
      · rcases k2 n v h3 with h2 | h2
        · by_cases hne : n = ref.Name
          · subst hne
            rw [hself] at h2
            simp only [Option.some.injEq] at h2
            right
            refine hexp _ _ ⟨ref, hG, rfl, h2, ?_⟩
            intro c hc
            rw [← hinfo] at hc
            exact k1 c hc
          · left
            simpa [stateVisited, seenSet, hne] using h2
        · exact Or.inr (hexp n v h2)
      · exact Or.inr h3

/-- After a successful walk from the empty `seen` map every reference of the graph is
recorded at its own version, provided equal name and version imply equal subject. -/
theorem walk_covers (refs : List SchemaReference) (fuel : Nat)
    (hsubj : ∀ r1 r2, Reach reg refs r1 → Reach reg refs r2 → r1.Name = r2.Name →
      r1.Version = r2.Version → r1.Subject = r2.Subject)
    (hok : (WalkReferences reg.getSchema fn fuel refs).1 = .done none)
    (r : SchemaReference) (hr : Reach reg refs r) :
    (WalkReferences reg.getSchema fn fuel refs).2.seen r.Name = some r.Version := by
  have hc := walk_closed reg fn (Reach reg refs) (fun p hp c hc => Reach.step hp hc) fuel
    { seen := fun _ => none, log := [] } refs (fun r hr => Reach.root hr) hok
  induction hr with
  | root hmem => exact hc.1 _ hmem
  | step hp hmem ih =>
    rename_i p c
    rcases hc.2 _ _ ih with h | ⟨q, hq, hqn, hqv, hkids⟩
    · simp at h
    · have hs : q.Subject = p.Subject := hsubj q p hq hp hqn hqv
      rw [hs, hqv] at hkids
      exact hkids c hmem

/-- Every visitor call of a run is made for a reference of `G`, with the schema the registry
holds for its subject and version. -/
theorem walk_visits_sound (G : SchemaReference → Prop)
    (hclosed : ∀ p, G p → ∀ c ∈ (reg p.Subject p.Version).References, G c)
    (fuel : Nat) (st : WalkState) (refs : List SchemaReference)
    (hrefs : ∀ r ∈ refs, G r)
    (hst : ∀ ref info res, Event.visit ref info res ∈ st.log →
      G ref ∧ info = reg ref.Subject ref.Version) :
    ∀ ref info res,
      Event.visit ref info res ∈ (walkReferencesTracked reg.getSchema fn fuel st refs).2.log →
      G ref ∧ info = reg ref.Subject ref.Version := by
  revert hrefs hst
  refine walk_induction reg.getSchema fn
    (fun _ st refs res => (∀ r ∈ refs, G r) →
      (∀ ref info r, Event.visit ref info r ∈ st.log →
        G ref ∧ info = reg ref.Subject ref.Version) →
      ∀ ref info r, Event.visit ref info r ∈ res.2.log →
        G ref ∧ info = reg ref.Subject ref.Version)
    ?_ ?_ ?_ ?_ ?_ ?_ ?_ ?_ fuel st refs
  · intro _ _ _ h; exact h
  · intro _ _ _ h; exact h
  · intro _ _ ref rest _ ih hrefs h
    exact ih (fun r hr => hrefs r (List.mem_cons_of_mem _ hr)) h
  · intro _ _ _ _ _ _ _ _ h; exact h
  · intro _ _ _ _ _ _ hf _ _
    simp [Registry.getSchema] at hf
  · intro _ st ref rest info e _ hf _ hrefs h ref2 info2 r2 hm
    simp only [logFetched, List.append_assoc, List.singleton_append, List.mem_append,
      List.mem_cons, List.not_mem_nil, or_false, reduceCtorEq, false_or,
      Event.visit.injEq] at hm
    rcases hm with hm | ⟨h1, h2, _⟩
    · exact h ref2 info2 r2 hm
    · subst h1 h2
      exact ⟨hrefs _ (List.mem_cons_self _ _), registry_getSchema_ok reg hf⟩
  · intro _ st ref rest info out st3 _ hf _ _ _ ih hrefs h
    have hG : G ref := hrefs ref (List.mem_cons_self _ _)
    have hinfo := registry_getSchema_ok reg hf
    apply ih (fun c hc => by rw [hinfo] at hc; exact hclosed ref hG c hc)
    intro ref2 info2 r2 hm
    simp only [stateVisited, logFetched, List.append_assoc, List.singleton_append,
      List.mem_append, List.mem_cons, List.not_mem_nil, or_false, reduceCtorEq, false_or,
      Event.visit.injEq] at hm
    rcases hm with hm | ⟨h1, h2, _⟩
    · exact h ref2 info2 r2 hm
    · subst h1 h2
      exact ⟨hG, hinfo⟩
  · intro _ st ref rest info st3 _ hf _ _ ih1 ih2 hrefs h
    have hG : G ref := hrefs ref (List.mem_cons_self _ _)
    have hinfo := registry_getSchema_ok reg hf
    apply ih2 (fun r hr => hrefs r (List.mem_cons_of_mem _ hr))
    apply ih1 (fun c hc => by rw [hinfo] at hc; exact hclosed ref hG c hc)
    intro ref2 info2 r2 hm
    simp only [stateVisited, logFetched, List.append_assoc, List.singleton_append,
      List.mem_append, List.mem_cons, List.not_mem_nil, or_false, reduceCtorEq, false_or,
      Event.visit.injEq] at hm
    rcases hm with hm | ⟨h1, h2, _⟩
    · exact h ref2 info2 r2 hm
    · subst h1 h2
      exact ⟨hG, hinfo⟩

/-- The names visited by a successful run are those the specification's pre-order yields at
the same depth bound, started from the names visited before. -/
theorem walk_refines_preorder (fuel : Nat) (st : WalkState) (refs : List SchemaReference)
    (hst : ∀ n, st.seen n ≠ none ↔ n ∈ visitedNames st.log)
    (hok : (walkReferencesTracked reg.getSchema fn fuel st refs).1 = .done none) :
    specPreorder reg fuel (visitedNames st.log) refs
        = some (visitedNames (walkReferencesTracked reg.getSchema fn fuel st refs).2.log) ∧
      ∀ n, (walkReferencesTracked reg.getSchema fn fuel st refs).2.seen n ≠ none ↔
        n ∈ visitedNames (walkReferencesTracked reg.getSchema fn fuel st refs).2.log := by
  revert hst hok
  refine walk_induction reg.getSchema fn
    (fun fuel st refs res => (∀ n, st.seen n ≠ none ↔ n ∈ visitedNames st.log) →
      res.1 = .done none →
      specPreorder reg fuel (visitedNames st.log) refs = some (visitedNames res.2.log) ∧
        ∀ n, res.2.seen n ≠ none ↔ n ∈ visitedNames res.2.log)
    ?_ ?_ ?_ ?_ ?_ ?_ ?_ ?_ fuel st refs
  · intro _ _ _ h; simp at h
  · intro _ _ h _; exact ⟨rfl, h⟩
  · intro fuel st ref rest hs ih hst h
    obtain ⟨h1, h2⟩ := ih hst h
    refine ⟨?_, h2⟩
    have hmem : ref.Name ∈ visitedNames st.log := (hst _).mp (by rw [hs]; simp)
    rw [← h1]
    simp [specPreorder, specPreorderLoop, hmem]
  · intro _ _ _ _ _ _ _ _ h; simp at h
  · intro _ _ _ _ _ _ _ _ h; simp at h
  · intro _ _ _ _ _ _ _ _ _ _ h; simp at h
  · intro _ _ _ _ _ out _ _ _ _ _ hout _ _ h
    exact absurd h hout
  · intro fuel st ref rest info st3 hs hf _ hr ih1 ih2 hst h
    have hinfo := registry_getSchema_ok reg hf
    have hst2 : ∀ n, (stateVisited st ref info).seen n ≠ none ↔
        n ∈ visitedNames (stateVisited st ref info).log := by
      intro n
      rw [visitedNames_visited]
      simp only [stateVisited, seenSet, List.mem_append, List.mem_singleton]
      by_cases hne : n = ref.Name
      · simp [hne]
      · simp only [hne, if_false, or_false]
        exact hst n
    obtain ⟨k1, k2⟩ := ih1 hst2 rfl
    obtain ⟨m1, m2⟩ := ih2 k2 h
    refine ⟨?_, m2⟩
    have hnot : ref.Name ∉ visitedNames st.log := by
      intro hmem
      exact (hst _).mpr hmem hs
    rw [visitedNames_visited, hinfo] at k1
    have k1b : specPreorder reg fuel (visitedNames st.log ++ [ref.Name])
        (reg ref.Subject ref.Version).References = some (visitedNames st3.log) := k1
    have m1b : specPreorderLoop reg (specPreorder reg fuel) (visitedNames st3.log) rest
        = some (visitedNames
            (walkReferencesTracked reg.getSchema fn (fuel + 1) st3 rest).2.log) := m1
    show specPreorderLoop reg (specPreorder reg fuel) (visitedNames st.log) (ref :: rest) = _
    rw [specPreorderLoop]
    simp only [hnot, if_false]
    rw [k1b]
    exact m1b

/-- With a visitor that always succeeds, every visitor call in the history returned `nil`. -/
theorem walk_visits_ok (getSchema : GetSchema) (hfn : ∀ log n i, fn log n i = none)
    (fuel : Nat) (st : WalkState) (refs : List SchemaReference)
    (hst : ∀ ref info res, Event.visit ref info res ∈ st.log → res = none) :
    ∀ ref info res,
      Event.visit ref info res ∈ (walkReferencesTracked getSchema fn fuel st refs).2.log →
      res = none := by
  revert hst
  refine walk_induction getSchema fn
    (fun _ st _ res => (∀ ref info r, Event.visit ref info r ∈ st.log → r = none) →
      ∀ ref info r, Event.visit ref info r ∈ res.2.log → r = none)
    ?_ ?_ ?_ ?_ ?_ ?_ ?_ ?_ fuel st refs
  · intro _ _ h; exact h
  · intro _ _ h; exact h
  · intro _ _ _ _ _ ih h; exact ih h
  · intro _ _ _ _ _ _ _ h; exact h
  · intro _ st ref _ e _ _ h ref2 info2 r2 hm
    simp only [List.mem_append, List.mem_singleton, reduceCtorEq, or_false] at hm
    exact h ref2 info2 r2 hm
  · intro _ st ref _ info e _ _ hv _ _
    rw [hfn] at hv
    exact Option.noConfusion hv
  · intro _ st ref rest info out st3 _ _ _ _ _ ih h
    apply ih
    intro ref2 info2 r2 hm
    simp only [stateVisited, logFetched, List.append_assoc, List.singleton_append,
      List.mem_append, List.mem_cons, List.not_mem_nil, or_false, reduceCtorEq, false_or,
      Event.visit.injEq] at hm
    rcases hm with hm | ⟨_, _, h3⟩
    · exact h ref2 info2 r2 hm
    · exact h3
  · intro _ st ref rest info st3 _ _ _ _ ih1 ih2 h
    apply ih2
    apply ih1
    intro ref2 info2 r2 hm
    simp only [stateVisited, logFetched, List.append_assoc, List.singleton_append,
      List.mem_append, List.mem_cons, List.not_mem_nil, or_false, reduceCtorEq, false_or,
      Event.visit.injEq] at hm
    rcases hm with hm | ⟨_, _, h3⟩
    · exact h ref2 info2 r2 hm
    · exact h3

end RegistryWalk


/-! ## Claims about the reference walker -/

theorem seenExact_empty : SeenExact { seen := fun _ => none, log := [] } := by
  intro n v
  simp

theorem walkReferences_nodup (getSchema : GetSchema) (fn : RefWalkFn) (fuel : Nat)
    (refs : List SchemaReference) :
    SeenExact (WalkReferences getSchema fn fuel refs).2 ∧
      (visitedNames (WalkReferences getSchema fn fuel refs).2.log).Nodup := by
  have h := walk_seen_inv getSchema fn fuel { seen := fun _ => none, log := [] } refs
    seenExact_empty (by intro n hn; simp [visitedNames] at hn) (by simp [visitedNames])
  exact ⟨h.1, h.2.1⟩

theorem walkReferences_terminates (reg : Registry) (fn : RefWalkFn)
    (refs : List SchemaReference) (names : List String)
    (hfin : ∀ r, Reach reg refs r → r.Name ∈ names)
    (fuel : Nat) (hfuel : names.length < fuel) :
    (WalkReferences reg.getSchema fn fuel refs).1 ≠ .outOfFuel := by
  apply walk_terminates reg.getSchema fn (Reach reg refs) names.toFinset
    (fun p hp log info h => reach_children reg hp log info h)
    (fun p hp => List.mem_toFinset.mpr (hfin p hp))
    fuel _ refs (fun r hr => Reach.root hr)
  calc unseenCount names.toFinset (fun _ => none)
      ≤ names.toFinset.card := Finset.card_filter_le _ _
    _ ≤ names.length := List.toFinset_card_le names
    _ < fuel := hfuel

theorem walkReferences_ok (reg : Registry) (fn : RefWalkFn)
    (refs : List SchemaReference) (names : List String)
    (hfn : ∀ log n i, fn log n i = none)
    (hfin : ∀ r, Reach reg refs r → r.Name ∈ names)
    (hcons : ∀ r1 r2, Reach reg refs r1 → Reach reg refs r2 → r1.Name = r2.Name →
      r1.Version = r2.Version)
    (fuel : Nat) (hfuel : names.length < fuel) :
    (WalkReferences reg.getSchema fn fuel refs).1 = .done none := by
  have hterm := walkReferences_terminates reg fn refs names hfin fuel hfuel
  have hne := (walk_no_error reg fn hfn (Reach reg refs) (fun p hp c hc => Reach.step hp hc)
    hcons fuel { seen := fun _ => none, log := [] } refs (fun r hr => Reach.root hr)
    (by intro n v h; simp at h)).1
  cases hres : (WalkReferences reg.getSchema fn fuel refs).1 with
  | outOfFuel => exact absurd hres hterm
  | done err =>
    cases err with
    | none => rfl
    | some e => exact absurd hres (hne e)

/-- C3. On a finite reference graph (all names of the graph lie in the list `names`), cyclic
or not, in which every occurrence of a name carries the same version, with every fetch
succeeding and a visitor that always succeeds, `WalkReferences` terminates (a depth bound
above the number of names is never hit), returns `nil`, and hands no name to the visitor
twice. -/
theorem walkReferences_consistent_graph_succeeds (reg : Registry) (fn : RefWalkFn)
    (refs : List SchemaReference) (names : List String)
    (hfn : ∀ log n i, fn log n i = none)
    (hfin : ∀ r, Reach reg refs r → r.Name ∈ names)
    (hcons : ∀ r1 r2, Reach reg refs r1 → Reach reg refs r2 → r1.Name = r2.Name →
      r1.Version = r2.Version)
    (fuel : Nat) (hfuel : names.length < fuel) :
    (WalkReferences reg.getSchema fn fuel refs).1 = .done none ∧
      (visitedNames (WalkReferences reg.getSchema fn fuel refs).2.log).Nodup :=
  ⟨walkReferences_ok reg fn refs names hfn hfin hcons fuel hfuel,
    (walkReferences_nodup reg.getSchema fn fuel refs).2⟩

/-- C2, as the code has it. On a finite reference graph in which no two occurrences of a
name differ in version or in subject, with every fetch succeeding and a visitor that always
succeeds, `WalkReferences` returns `nil`; the names handed to the visitor are, in order, the
depth-first pre-order of the specification; no name is visited twice; the visited names
are exactly the names of the graph; and each call receives the registry's schema for the
subject and version of its reference. -/
theorem walkReferences_visits_preorder (reg : Registry) (fn : RefWalkFn)
    (refs : List SchemaReference) (names : List String)
    (hfn : ∀ log n i, fn log n i = none)
    (hfin : ∀ r, Reach reg refs r → r.Name ∈ names)
    (hcons : ∀ r1 r2, Reach reg refs r1 → Reach reg refs r2 → r1.Name = r2.Name →
      r1.Version = r2.Version)
    (hsubj : ∀ r1 r2, Reach reg refs r1 → Reach reg refs r2 → r1.Name = r2.Name →
      r1.Subject = r2.Subject)
    (fuel : Nat) (hfuel : names.length < fuel) :
    (WalkReferences reg.getSchema fn fuel refs).1 = .done none ∧
    specPreorder reg fuel [] refs
      = some (visitedNames (WalkReferences reg.getSchema fn fuel refs).2.log) ∧
    (visitedNames (WalkReferences reg.getSchema fn fuel refs).2.log).Nodup ∧
    (∀ n, n ∈ visitedNames (WalkReferences reg.getSchema fn fuel refs).2.log ↔
      ∃ r, Reach reg refs r ∧ r.Name = n) ∧
    (∀ ref info res, Event.visit ref info res ∈ (WalkReferences reg.getSchema fn fuel refs).2.log →
      info = reg ref.Subject ref.Version) := by
  have hok := walkReferences_ok reg fn refs names hfn hfin hcons fuel hfuel
  have hinv := walkReferences_nodup reg.getSchema fn fuel refs
  have hsound := walk_visits_sound reg fn (Reach reg refs) (fun p hp c hc => Reach.step hp hc)
    fuel { seen := fun _ => none, log := [] } refs (fun r hr => Reach.root hr)
    (by intro _ _ _ h; simp at h)
  refine ⟨hok, ?_, hinv.2, ?_, fun ref info res h => (hsound ref info res h).2⟩
  · exact (walk_refines_preorder reg fn fuel { seen := fun _ => none, log := [] } refs
      (by intro n; simp [visitedNames]) hok).1
  · intro n
    constructor
    · intro hn
      obtain ⟨ref, info, res, hm, hname⟩ := (mem_visitedNames _ n).mp hn
      exact ⟨ref, (hsound ref info res hm).1, hname⟩
    · rintro ⟨r, hr, hname⟩
      have hseen := walk_covers reg fn refs fuel
        (fun r1 r2 h1 h2 hn _ => hsubj r1 r2 h1 h2 hn) hok r hr
      obtain ⟨ref, info, hm, h1, _⟩ := (hinv.1 r.Name r.Version).mp hseen
      exact (mem_visitedNames _ n).mpr ⟨ref, info, none, hm, h1.trans hname⟩

/-- C1, as the code has it. On a finite reference graph in which occurrences of a name with
equal versions have equal subjects, with every fetch succeeding and a visitor that always
succeeds: if the graph contains two occurrences of one name with different versions, then
`WalkReferences` returns the version-mismatch error for some occurrence `ref` of the graph,
naming it, the version `i` recorded for its name and its own version; the visitor was invoked
for that name with version `i` only, and for no name twice. -/
theorem walkReferences_conflict_detected (reg : Registry) (fn : RefWalkFn)
    (refs : List SchemaReference) (names : List String)
    (hfn : ∀ log n i, fn log n i = none)
    (hfin : ∀ r, Reach reg refs r → r.Name ∈ names)
    (hsubj : ∀ r1 r2, Reach reg refs r1 → Reach reg refs r2 → r1.Name = r2.Name →
      r1.Version = r2.Version → r1.Subject = r2.Subject)
    (r1 r2 : SchemaReference) (h1 : Reach reg refs r1) (h2 : Reach reg refs r2)
    (hname : r1.Name = r2.Name) (hver : r1.Version ≠ r2.Version)
    (fuel : Nat) (hfuel : names.length < fuel) :
    ∃ ref i, Reach reg refs ref ∧ i ≠ ref.Version ∧
      (WalkReferences reg.getSchema fn fuel refs).1
        = .done (some (mismatchError ref.Name i ref.Version)) ∧
      (WalkReferences reg.getSchema fn fuel refs).2.seen ref.Name = some i ∧
      (∀ q info res, Event.visit q info res ∈ (WalkReferences reg.getSchema fn fuel refs).2.log →
        q.Name = ref.Name → q.Version = i) ∧
      (visitedNames (WalkReferences reg.getSchema fn fuel refs).2.log).Nodup := by
  have hterm := walkReferences_terminates reg fn refs names hfin fuel hfuel
  have hinv := walkReferences_nodup reg.getSchema fn fuel refs
  have hvis := walk_visits_ok fn reg.getSchema hfn fuel { seen := fun _ => none, log := [] } refs
    (by intro _ _ _ h; simp at h)
  cases hres : (WalkReferences reg.getSchema fn fuel refs).1 with
  | outOfFuel => exact absurd hres hterm
  | done err =>
    cases err with
    | none =>
      have k1 := walk_covers reg fn refs fuel hsubj hres r1 h1
      have k2 := walk_covers reg fn refs fuel hsubj hres r2 h2
      rw [hname, k2] at k1
      simp only [Option.some.injEq] at k1
      exact absurd k1.symm hver
    | some e =>
      obtain ⟨ref, i, hG, hseen, hne, he⟩ := walk_error_is_mismatch reg fn hfn (Reach reg refs)
        (fun p hp c hc => Reach.step hp hc) fuel { seen := fun _ => none, log := [] } refs
        (fun r hr => Reach.root hr) e hres
      refine ⟨ref, i, hG, hne, by rw [he], hseen, ?_, hinv.2⟩
      intro q info res hm hq
      have hnone : res = none := hvis q info res hm
      subst hnone
      have := (hinv.1 q.Name q.Version).mpr ⟨q, info, hm, rfl, rfl⟩
      rw [hq] at this
      have hseen2 : (WalkReferences reg.getSchema fn fuel refs).2.seen ref.Name = some i := hseen
      rw [hseen2] at this
      simp only [Option.some.injEq] at this
      exact this.symm

theorem walkReferences_aborts (getSchema : GetSchema) (fn : RefWalkFn) (fuel : Nat)
    (refs : List SchemaReference) :
    AbortsAt (WalkReferences getSchema fn fuel refs).2.log
      (WalkReferences getSchema fn fuel refs).1 := by
  obtain ⟨new, hnew, hab⟩ :=
    walk_aborts getSchema fn fuel { seen := fun _ => none, log := [] } refs
  have : (WalkReferences getSchema fn fuel refs).2.log = new := by simpa using hnew
  rw [this]
  exact hab

/-- C5. In every run of `WalkReferences` (finished, or cut anywhere by the depth bound), a
failed fetch or a failed visitor call is the last interaction of the whole walk, at
whatever depth it happened, and the walk returns exactly its error. -/
theorem walkReferences_first_failure_aborts (getSchema : GetSchema) (fn : RefWalkFn)
    (fuel : Nat) (refs : List SchemaReference) (pre post : List Event) (ev : Event)
    (e : String)
    (hlog : (WalkReferences getSchema fn fuel refs).2.log = pre ++ ev :: post)
    (hfail : ev.failure = some e) :
    post = [] ∧ (WalkReferences getSchema fn fuel refs).1 = .done (some e) := by
  exact walkReferences_aborts getSchema fn fuel refs pre ev post e hlog hfail

theorem walkInv_visited (st : WalkState) (ref : SchemaReference) (info : SchemaInfo)
    (hs : st.seen ref.Name = none) (h : WalkInv st) : WalkInv (stateVisited st ref info) := by
  obtain ⟨h1, h2, h3⟩ := h
  refine ⟨seenExact_visited st ref info hs h1, ?_, ?_⟩
  · intro n hn
    rw [visitedNames_visited] at hn
    simp only [stateVisited, seenSet]
    by_cases hne : n = ref.Name
    · simp [hne]
    · simp only [hne, if_false]
      rcases List.mem_append.mp hn with hn | hn
      · exact h2 n hn
      · simp only [List.mem_singleton] at hn; exact absurd hn hne
  · rw [visitedNames_visited, List.nodup_append]
    refine ⟨h3, by simp, ?_⟩
    intro a ha hb
    simp only [List.mem_singleton] at hb
    subst hb
    exact h2 _ ha hs

/-- The invariant holds in every state a run passes through. -/
theorem passesThrough_inv (getSchema : GetSchema) (fn : RefWalkFn) (fuel : Nat)
    (st st1 : WalkState) (refs : List SchemaReference)
    (hp : PassesThrough getSchema fn fuel st refs st1) (hinv : WalkInv st) : WalkInv st1 := by
  induction hp with
  | start _ _ _ => exact hinv
  | skip _ _ ih => exact ih hinv
  | child hs _ _ _ ih => exact ih (walkInv_visited _ _ _ hs hinv)
  | @next fuel st st1 st3 ref rest info hs _ _ hr _ ih =>
    have h := walk_seen_inv getSchema fn fuel (stateVisited st ref info) info.References
      (walkInv_visited _ _ _ hs hinv).1 (walkInv_visited _ _ _ hs hinv).2.1
      (walkInv_visited _ _ _ hs hinv).2.2
    rw [hr] at h
    exact ih ⟨h.1, h.2.2 (fun e => by simp), h.2.1⟩

/-- C10. The invariant of the `seen` map (its keys are exactly the names whose visit returned
`nil`, each bound to the version of the visited reference, and the names handed to the
visitor are pairwise distinct). It holds of the state `WalkReferences` starts from and of
every state a run of `walkReferencesTracked` started in such a state passes through, at every
loop iteration of every nesting depth; such a run ends (with `nil`, with an error, or cut by
the depth bound) in a state with the same two properties; entries are never overwritten;
and a reference whose name is recorded with the same version is skipped without any
interaction, whatever its subject. -/
theorem seen_map_invariant (getSchema : GetSchema) (fn : RefWalkFn) :
    WalkInv { seen := fun _ => none, log := [] } ∧
    (∀ fuel st refs st1, WalkInv st → PassesThrough getSchema fn fuel st refs st1 →
      WalkInv st1) ∧
    (∀ fuel st refs, WalkInv st →
      SeenExact (walkReferencesTracked getSchema fn fuel st refs).2 ∧
      (visitedNames (walkReferencesTracked getSchema fn fuel st refs).2.log).Nodup ∧
      ((∀ e, (walkReferencesTracked getSchema fn fuel st refs).1 ≠ .done (some e)) →
        WalkInv (walkReferencesTracked getSchema fn fuel st refs).2)) ∧
    (∀ fuel st refs n v, st.seen n = some v →
      (walkReferencesTracked getSchema fn fuel st refs).2.seen n = some v) ∧
    (∀ fuel st ref rest, st.seen ref.Name = some ref.Version →
      walkReferencesTracked getSchema fn (fuel + 1) st (ref :: rest)
        = walkReferencesTracked getSchema fn (fuel + 1) st rest) := by
  refine ⟨⟨seenExact_empty, by intro n hn; simp [visitedNames] at hn, by simp [visitedNames]⟩,
    ?_, ?_, ?_, ?_⟩
  · intro fuel st refs st1 hinv hp
    exact passesThrough_inv getSchema fn fuel st st1 refs hp hinv
  · intro fuel st refs hinv
    have h := walk_seen_inv getSchema fn fuel st refs hinv.1 hinv.2.1 hinv.2.2
    exact ⟨h.1, h.2.1, fun hne => ⟨h.1, h.2.2 hne, h.2.1⟩⟩
  · intro fuel st refs n v h
    exact walk_seen_mono getSchema fn fuel st refs n v h
  · intro fuel st ref rest h
    exact walk_skip getSchema fn fuel st ref rest h

theorem visitResults_append (a b : List Event) :
    visitResults (a ++ b) = visitResults a ++ visitResults b := by
  induction a with
  | nil => rfl
  | cons ev a ih =>
    cases ev with
    | fetch s v r => simpa [visitResults] using ih
    | visit ref info r => simpa [visitResults] using ih

theorem visitResults_split (log : List Event) (N : Nat) (name : String) (res : Option String)
    (h : (visitResults log)[N]? = some (name, res)) :
    ∃ pre ref info post, log = pre ++ Event.visit ref info res :: post ∧ ref.Name = name ∧
      (visitResults pre).length = N := by
  induction log generalizing N with
  | nil => simp [visitResults] at h
  | cons ev log ih =>
    cases ev with
    | fetch s v r =>
      simp only [visitResults] at h
      obtain ⟨pre, ref, info, post, h1, h2, h3⟩ := ih N h
      exact ⟨.fetch s v r :: pre, ref, info, post, by simp [h1], h2, by simpa [visitResults] using h3⟩
    | visit ref info r =>
      cases N with
      | zero =>
        simp only [visitResults, List.getElem?_cons_zero, Option.some.injEq, Prod.mk.injEq] at h
        exact ⟨[], ref, info, log, by simp [h.2], h.1, rfl⟩
      | succ N =>
        simp only [visitResults, List.getElem?_cons_succ] at h
        obtain ⟨pre, ref2, info2, post, h1, h2, h3⟩ := ih N h
        exact ⟨.visit ref info r :: pre, ref2, info2, post, by simp [h1], h2,
          by simpa [visitResults] using h3⟩

/-- C6, as the code has it. When the visitor call number `N` (counted from 0) of a walk returns
an error, `WalkReferences` returns that very error value, unchanged, and that call is the
last visitor call of the walk. -/
theorem walkReferences_returns_visitor_error (getSchema : GetSchema) (fn : RefWalkFn)
    (fuel : Nat) (refs : List SchemaReference) (N : Nat) (name e : String)
    (h : (visitResults (WalkReferences getSchema fn fuel refs).2.log)[N]? = some (name, some e)) :
    (WalkReferences getSchema fn fuel refs).1 = .done (some e) ∧
      (visitResults (WalkReferences getSchema fn fuel refs).2.log).length = N + 1 := by
  obtain ⟨pre, ref, info, post, h1, h2, h3⟩ := visitResults_split _ N name (some e) h
  have hab := walkReferences_aborts getSchema fn fuel refs pre
    (.visit ref info (some e)) post e h1 rfl
  refine ⟨hab.2, ?_⟩
  rw [h1, hab.1, visitResults_append]
  simp [visitResults, h3]

/-! ### The walker on concrete inputs -/

theorem reach_money (r : SchemaReference) (h : Reach moneyRegistry [refMoney] r) :
    r = refMoney := by
  induction h with
  | root hm => simpa using hm
  | step hp hm ih =>
    subst ih
    simp [moneyRegistry, moneySchema, refMoney] at hm

theorem reach_cycle (r : SchemaReference) (h : Reach cycleRegistry [refA] r) :
    r = refA ∨ r = refB := by
  induction h with
  | root hm => left; simpa using hm
  | step hp hm ih =>
    rcases ih with ih | ih
    · subst ih
      simp [cycleRegistry, refA, schemaA] at hm
      exact Or.inr hm
    · subst ih
      simp [cycleRegistry, refB, schemaB] at hm
      exact Or.inl hm

/-- Witness of C3: the two-schema cycle `A → B → A` is walked with exactly two visits. -/
theorem walkReferences_consistent_graph_succeeds_witness :
    ((WalkReferences cycleRegistry.getSchema okVisitor 3 [refA]).1 = .done none ∧
      (visitedNames (WalkReferences cycleRegistry.getSchema okVisitor 3 [refA]).2.log).Nodup) ∧
    visitedNames (WalkReferences cycleRegistry.getSchema okVisitor 3 [refA]).2.log
      = ["A", "B"] :=
  ⟨walkReferences_consistent_graph_succeeds cycleRegistry okVisitor [refA] ["A", "B"]
    (fun _ _ _ => rfl)
    (fun r hr => by rcases reach_cycle r hr with h | h <;> subst h <;> simp [refA, refB])
    (fun r1 r2 h1 h2 hn => by
      rcases reach_cycle r1 h1 with h | h <;> rcases reach_cycle r2 h2 with k | k <;>
        subst h <;> subst k <;> simp [refA, refB] at hn ⊢)
    3 (by decide), by decide⟩

/-- Witness of C5: the fetch of `B` fails below `A`; nothing happens afterwards, the
reference `C` that follows in the input list is not fetched, and the fetch error is the
result. -/
theorem walkReferences_first_failure_aborts_witness :
    ([] : List Event) = [] ∧
      (WalkReferences failingGetSchema okVisitor 3 [refA, refC]).1
        = .done (some "registry down") :=
  walkReferences_first_failure_aborts failingGetSchema okVisitor 3 [refA, refC]
    [.fetch "a" 1 (.ok schemaA), .visit refA schemaA none] []
    (.fetch "b" 1 (.error "registry down")) "registry down" (by decide) (by decide)

theorem reach_alias_y (r : SchemaReference) (h : Reach aliasRegistry [refAx, refAy] r) :
    r = refAx ∨ r = refAy ∨ r = refB ∨ r = refB2 := by
  induction h with
  | root hm =>
    simp only [List.mem_cons, List.mem_singleton, List.not_mem_nil, or_false] at hm
    rcases hm with hm | hm
    · exact Or.inl hm
    · exact Or.inr (Or.inl hm)
  | step hp hm ih =>
    rcases ih with ih | ih | ih | ih <;> subst ih <;>
      simp [aliasRegistry, leafSchema, refAx, refAy, refB, refB2] at hm
    rcases hm with hm | hm
    · exact Or.inr (Or.inr (Or.inl hm))
    · exact Or.inr (Or.inr (Or.inr hm))

theorem reach_alias_z (r : SchemaReference) (h : Reach aliasRegistry [refAx, refAz] r) :
    r = refAx ∨ r = refAz ∨ r = refC := by
  induction h with
  | root hm =>
    simp only [List.mem_cons, List.mem_singleton, List.not_mem_nil, or_false] at hm
    rcases hm with hm | hm
    · exact Or.inl hm
    · exact Or.inr (Or.inl hm)
  | step hp hm ih =>
    rcases ih with ih | ih | ih <;> subst ih <;>
      simp [aliasRegistry, leafSchema, refAx, refAz, refC] at hm
    exact Or.inr (Or.inr hm)

/-- On the endless chain the walker hits every depth bound: the walk never returns. -/
theorem walk_chain_diverges (fuel : Nat) :
    ∀ (st : WalkState) (k : Nat) (rest : List SchemaReference),
      (∀ n, st.seen n ≠ none → n.length < k) →
      (walkReferencesTracked chainRegistry.getSchema okVisitor fuel st (chainRef k :: rest)).1
        = .outOfFuel := by
  induction fuel with
  | zero => intro _ _ _ _; rfl
  | succ fuel ih =>
    intro st k rest hst
    have hlen : (chainRef k).Name.length = k := by simp [chainRef, String.length]
    have hs : st.seen (chainRef k).Name = none := by
      by_contra hne
      have := hst _ hne
      omega
    have hf : chainRegistry.getSchema st.log (chainRef k).Subject (chainRef k).Version
        = .ok { ID := 0, SchemaType := "AVRO", Schema := "", References := [chainRef (k + 1)] } := by
      simp [Registry.getSchema, chainRegistry, chainRef]
    have hrec := ih (stateVisited st (chainRef k)
      { ID := 0, SchemaType := "AVRO", Schema := "", References := [chainRef (k + 1)] })
      (k + 1) [] (by
      intro n hn
      simp only [stateVisited, seenSet] at hn
      by_cases hname : n = (chainRef k).Name
      · rw [hname, hlen]; omega
      · simp only [hname, if_false] at hn
        have := hst n hn
        omega)
    cases hres : walkReferencesTracked chainRegistry.getSchema okVisitor fuel
        (stateVisited st (chainRef k)
          { ID := 0, SchemaType := "AVRO", Schema := "", References := [chainRef (k + 1)] })
        [chainRef (k + 1)] with
    | mk out st3 =>
      rw [hres] at hrec
      simp only at hrec
      subst hrec
      rw [walk_descend_stop chainRegistry.getSchema okVisitor fuel st st3 (chainRef k) rest _
        .outOfFuel hs hf rfl hres (by simp)]

/-- Counterexample to C1 as stated. (a) With a visitor that fails, the input list
`[A v1, A v2]` contains a version conflict, yet the walk returns the visitor error, which
is not the version-mismatch error. (b) With a visitor that succeeds, the graph below
`[A ↦ x v1, A ↦ y v1]` contains `B` at versions 1 and 2 (in the schema of subject `y`), yet
the walk returns `nil`: the second `A` is skipped by name and subject `y` is never fetched.
(c) On an infinite graph the walk does not return at all: the input list continues with
`A v1, A v2` after the first reference of an endless chain, and every depth bound is hit. -/
theorem walkReferences_conflict_not_always_reported :
    ((WalkReferences leafRegistry.getSchema boomVisitor 3 [refA, refA2]).1
        = .done (some "boom") ∧
      refA.Name = refA2.Name ∧ refA.Version ≠ refA2.Version ∧
      "boom" ≠ mismatchError "A" 1 2) ∧
    (Reach aliasRegistry [refAx, refAy] refB ∧ Reach aliasRegistry [refAx, refAy] refB2 ∧
      refB.Name = refB2.Name ∧ refB.Version ≠ refB2.Version ∧
      (WalkReferences aliasRegistry.getSchema okVisitor 3 [refAx, refAy]).1 = .done none ∧
      (WalkReferences aliasRegistry.getSchema okVisitor 3 [refAx, refAy]).2.log
        = [.fetch "x" 1 (.ok leafSchema), .visit refAx leafSchema none]) ∧
    (∀ fuel, (WalkReferences chainRegistry.getSchema okVisitor fuel [chainRef 0, refA, refA2]).1
      = .outOfFuel) := by
  refine ⟨⟨by decide, by decide, by decide, by decide⟩,
    ⟨?_, ?_, by decide, by decide, by decide, by decide⟩, ?_⟩
  · exact Reach.step (Reach.root (by simp : refAy ∈ [refAx, refAy]))
      (by simp [aliasRegistry, refAy, refB])
  · exact Reach.step (Reach.root (by simp : refAy ∈ [refAx, refAy]))
      (by simp [aliasRegistry, refAy, refB2])
  · intro fuel
    exact walk_chain_diverges fuel { seen := fun _ => none, log := [] } 0 [refA, refA2]
      (by intro n hn; exact absurd rfl hn)

/-- Witness of C1 as amended: `A ↦ a v1` references `B v1`, and the input list continues with
`B v2`; the error returned is the message of line 260 for `B`, 1 and 2. -/
theorem walkReferences_conflict_detected_witness :
    (∃ ref i, Reach cycleRegistry [refA, refB2] ref ∧ i ≠ ref.Version ∧
      (WalkReferences cycleRegistry.getSchema okVisitor 4 [refA, refB2]).1
        = .done (some (mismatchError ref.Name i ref.Version)) ∧
      (WalkReferences cycleRegistry.getSchema okVisitor 4 [refA, refB2]).2.seen ref.Name
        = some i ∧
      (∀ q info res,
        Event.visit q info res
          ∈ (WalkReferences cycleRegistry.getSchema okVisitor 4 [refA, refB2]).2.log →
        q.Name = ref.Name → q.Version = i) ∧
      (visitedNames
        (WalkReferences cycleRegistry.getSchema okVisitor 4 [refA, refB2]).2.log).Nodup) ∧
    (WalkReferences cycleRegistry.getSchema okVisitor 4 [refA, refB2]).1
      = .done (some ("duplicate reference \x27B\x27 version mismatch of 1 and 2, "
          ++ "aborting in order to avoid invalid state")) := by
  refine ⟨?_, by decide⟩
  have hreach : ∀ r, Reach cycleRegistry [refA, refB2] r → r = refA ∨ r = refB ∨ r = refB2 := by
    intro r h
    induction h with
    | root hm =>
      simp only [List.mem_cons, List.mem_singleton, List.not_mem_nil, or_false] at hm
      rcases hm with hm | hm
      · exact Or.inl hm
      · exact Or.inr (Or.inr hm)
    | step hp hm ih =>
      rcases ih with ih | ih | ih <;> subst ih <;>
        simp [cycleRegistry, schemaA, schemaB, refA, refB, refB2] at hm
      · exact Or.inr (Or.inl hm)
      · exact Or.inl hm
      · exact Or.inl hm
  exact walkReferences_conflict_detected cycleRegistry okVisitor [refA, refB2] ["A", "B"]
    (fun _ _ _ => rfl)
    (fun r hr => by
      rcases hreach r hr with h | h | h <;> subst h <;> simp [refA, refB, refB2])
    (fun r1 r2 k1 k2 hn hv => by
      rcases hreach r1 k1 with h | h | h <;> rcases hreach r2 k2 with k | k | k <;>
        subst h <;> subst k <;> simp [refA, refB, refB2] at hn hv ⊢)
    refB refB2
    (Reach.step (Reach.root (by simp : refA ∈ [refA, refB2]))
      (by simp [cycleRegistry, refA, schemaA]))
    (Reach.root (by simp)) rfl (by decide) 4 (by decide)

/-- Counterexample to C2 as stated: in the graph below `[A ↦ x v1, A ↦ z v1]` no name occurs
at two versions and the walk returns `nil`, but the name `C`, referenced by the schema of
subject `z`, is never visited: the second `A` is skipped by name. -/
theorem walkReferences_misses_aliased_subtree :
    (∀ r1 r2, Reach aliasRegistry [refAx, refAz] r1 → Reach aliasRegistry [refAx, refAz] r2 →
      r1.Name = r2.Name → r1.Version = r2.Version) ∧
    Reach aliasRegistry [refAx, refAz] refC ∧
    (WalkReferences aliasRegistry.getSchema okVisitor 3 [refAx, refAz]).1 = .done none ∧
    visitedNames (WalkReferences aliasRegistry.getSchema okVisitor 3 [refAx, refAz]).2.log
      = ["A"] ∧
    refC.Name ∉
      visitedNames (WalkReferences aliasRegistry.getSchema okVisitor 3 [refAx, refAz]).2.log := by
  refine ⟨?_, ?_, by decide, by decide, by decide⟩
  · intro r1 r2 h1 h2 hn
    rcases reach_alias_z r1 h1 with h | h | h <;> rcases reach_alias_z r2 h2 with k | k | k <;>
      subst h <;> subst k <;> simp [refAx, refAz, refC] at hn ⊢
  · exact Reach.step (Reach.root (by simp : refAz ∈ [refAx, refAz]))
      (by simp [aliasRegistry, refAz, refC])

/-- Witness of C2 as amended, the example of the specification: the input `[Money]`, whose
schema has no references, yields exactly one visitor call, `visit("Money", money v1)`. -/
theorem walkReferences_visits_preorder_witness :
    ((WalkReferences moneyRegistry.getSchema okVisitor 2 [refMoney]).1 = .done none ∧
    specPreorder moneyRegistry 2 [] [refMoney]
      = some (visitedNames (WalkReferences moneyRegistry.getSchema okVisitor 2 [refMoney]).2.log) ∧
    (visitedNames (WalkReferences moneyRegistry.getSchema okVisitor 2 [refMoney]).2.log).Nodup ∧
    (∀ n, n ∈ visitedNames (WalkReferences moneyRegistry.getSchema okVisitor 2 [refMoney]).2.log ↔
      ∃ r, Reach moneyRegistry [refMoney] r ∧ r.Name = n) ∧
    (∀ ref info res,
      Event.visit ref info res
        ∈ (WalkReferences moneyRegistry.getSchema okVisitor 2 [refMoney]).2.log →
      info = moneyRegistry ref.Subject ref.Version)) ∧
    (WalkReferences moneyRegistry.getSchema okVisitor 2 [refMoney]).2.log
      = [.fetch "money" 1 (.ok moneySchema), .visit refMoney moneySchema none] :=
  ⟨walkReferences_visits_preorder moneyRegistry okVisitor [refMoney] ["Money"]
    (fun _ _ _ => rfl)
    (fun r hr => by rw [reach_money r hr]; simp [refMoney])
    (fun r1 r2 h1 h2 _ => by rw [reach_money r1 h1, reach_money r2 h2])
    (fun r1 r2 h1 h2 _ => by rw [reach_money r1 h1, reach_money r2 h2])
    2 (by decide), by decide⟩

/-- C4, evaluated on the code: two references with the same subject `s` and the different
versions 1 and 2, under the different names `A` and `B`, are both fetched and visited and
the walk returns `nil`: the `seen` map is keyed by reference name, not by subject. -/
theorem walkReferences_same_subject_other_version_accepted :
    refAs1.Subject = refBs2.Subject ∧ refAs1.Version ≠ refBs2.Version ∧
    (WalkReferences leafRegistry.getSchema okVisitor 2 [refAs1, refBs2]).1 = .done none ∧
    (WalkReferences leafRegistry.getSchema okVisitor 2 [refAs1, refBs2]).2.log
      = [.fetch "s" 1 (.ok leafSchema), .visit refAs1 leafSchema none,
         .fetch "s" 2 (.ok leafSchema), .visit refBs2 leafSchema none] := by
  decide

/-- Counterexample to C6 as stated: the walks over `[A]` and over `[B]` both fail in their
first visitor call, for different references, and return the same error value `boom`, which
names neither reference. -/
theorem walkReferences_error_does_not_identify :
    (WalkReferences leafRegistry.getSchema boomVisitor 2 [refA]).1 = .done (some "boom") ∧
    visitResults (WalkReferences leafRegistry.getSchema boomVisitor 2 [refA]).2.log
      = [("A", some "boom")] ∧
    (WalkReferences leafRegistry.getSchema boomVisitor 2 [refB]).1 = .done (some "boom") ∧
    visitResults (WalkReferences leafRegistry.getSchema boomVisitor 2 [refB]).2.log
      = [("B", some "boom")] := by
  decide

/-- Witness of C6 as amended. -/
theorem walkReferences_returns_visitor_error_witness :
    (WalkReferences leafRegistry.getSchema boomVisitor 2 [refA, refB]).1 = .done (some "boom") ∧
      (visitResults (WalkReferences leafRegistry.getSchema boomVisitor 2 [refA, refB]).2.log).length
        = 0 + 1 :=
  walkReferences_returns_visitor_error leafRegistry.getSchema boomVisitor 2 [refA, refB] 0 "A"
    "boom" (by decide)

/-- Witness of C10: on the input `[A ↦ x v1, A ↦ y v1, C]` the invariant holds at the end,
and in the state reached after `A ↦ x` the reference `A ↦ y` is skipped. -/
theorem seen_map_invariant_witness :
    (SeenExact (WalkReferences aliasRegistry.getSchema okVisitor 3 [refAx, refAy, refC]).2 ∧
      (visitedNames
        (WalkReferences aliasRegistry.getSchema okVisitor 3 [refAx, refAy, refC]).2.log).Nodup) ∧
    walkReferencesTracked aliasRegistry.getSchema okVisitor 3
        (stateVisited { seen := fun _ => none, log := [] } refAx leafSchema) [refAy, refC]
      = walkReferencesTracked aliasRegistry.getSchema okVisitor 3
        (stateVisited { seen := fun _ => none, log := [] } refAx leafSchema) [refC] :=
  ⟨⟨((seen_map_invariant aliasRegistry.getSchema okVisitor).2.2.1 3
        { seen := fun _ => none, log := [] } [refAx, refAy, refC]
        (seen_map_invariant aliasRegistry.getSchema okVisitor).1).1,
     ((seen_map_invariant aliasRegistry.getSchema okVisitor).2.2.1 3
        { seen := fun _ => none, log := [] } [refAx, refAy, refC]
        (seen_map_invariant aliasRegistry.getSchema okVisitor).1).2.1⟩,
   (seen_map_invariant aliasRegistry.getSchema okVisitor).2.2.2.2 2
      (stateVisited { seen := fun _ => none, log := [] } refAx leafSchema) refAy [refC]
      (by decide)⟩

/-! ## Claims about the transport -/

theorem retryLoop_response (c : Client) (req : Request) (n i : Nat) (r : DoResult)
    (status : Int) (body : String) (readErr : Option String)
    (h : c.send i req = .response status body readErr) :
    retryLoop c req (n + 1) i r
      = responseResult c (r.trace ++ [.dispatch i]) r.resBody status body readErr := by
  simp only [retryLoop, h, responseResult]

theorem retryLoop_connFail (c : Client) (req : Request) (n i : Nat) (r : DoResult) (e : String)
    (h : c.send i req = .connFail e) :
    retryLoop c req (n + 1) i r
      = retryLoop c req n (i + 1) { r with err := some e, trace := r.trace ++ [.dispatch i] } := by
  simp only [retryLoop, h]

theorem responseResult_trace (c : Client) (trace : List TransportEvent) (oldBody : String)
    (status : Int) (body : String) (readErr : Option String) :
    (responseResult c trace oldBody status body readErr).trace = trace := by
  unfold responseResult
  split
  · rfl
  · cases readErr with
    | some e => rfl
    | none => simp only; split <;> rfl

theorem attempts_append_dispatch (trace : List TransportEvent) (i : Nat) :
    attempts (trace ++ [.dispatch i]) = attempts trace + 1 := by
  simp [attempts]

theorem signerCalls_append_dispatch (trace : List TransportEvent) (i : Nat) :
    signerCalls (trace ++ [.dispatch i]) = signerCalls trace := by
  simp [signerCalls]

/-- The calls made by the retry loop: the trace it starts from, followed by the dispatches
of `k` consecutive iterations, `k` at most the number of iterations left. -/
theorem retryLoop_trace (c : Client) (req : Request) (n i : Nat) (r : DoResult) :
    ∃ k, k ≤ n ∧ (0 < n → 0 < k) ∧ (retryLoop c req n i r).trace
      = r.trace ++ (List.range k).map (fun j => TransportEvent.dispatch (i + j)) := by
  induction n generalizing i r with
  | zero => exact ⟨0, le_refl _, fun h => h, by simp [retryLoop]⟩
  | succ n ih =>
    cases h : c.send i req with
    | connFail e =>
      rw [retryLoop_connFail c req n i r e h]
      obtain ⟨k, hk, _, htr⟩ := ih (i + 1)
        { r with err := some e, trace := r.trace ++ [.dispatch i] }
      refine ⟨k + 1, by omega, fun _ => by omega, ?_⟩
      rw [htr, List.range_succ_eq_map]
      simp [Function.comp_def, Nat.add_assoc, Nat.add_comm 1]
    | response status body readErr =>
      rw [retryLoop_response c req n i r status body readErr h, responseResult_trace]
      exact ⟨1, by omega, fun _ => by omega, by simp [List.range_succ]⟩

/-- The trace of every call of `doRequest`: nothing, or one call of the signer followed by
the dispatches of at most three consecutive loop iterations. -/
theorem doRequest_trace (c : Client) (verb reqPath body : String) :
    (doRequest c verb reqPath body).trace = [] ∨
      ∃ k, k ≤ 3 ∧ (doRequest c verb reqPath body).trace
        = .sign :: (List.range k).map (fun j => TransportEvent.dispatch j) := by
  cases hb : buildRequest c verb reqPath body with
  | error e => left; simp [doRequest, hb]
  | ok req =>
    right
    cases hs : c.requestSigner req with
    | error e => exact ⟨0, by omega, by simp [doRequest, hb, hs]⟩
    | ok signed =>
      obtain ⟨k, hk, _, htr⟩ := retryLoop_trace c signed 3 0
        { resCode := 0, resBody := "", err := none, trace := [.sign] }
      exact ⟨k, hk, by simpa [doRequest, hb, hs] using htr⟩

theorem attempts_sign_dispatches (k : Nat) :
    attempts (.sign :: (List.range k).map (fun j => TransportEvent.dispatch j)) = k := by
  simp [attempts, List.filter_map, Function.comp_def]

theorem signerCalls_sign_dispatches (k : Nat) :
    signerCalls (.sign :: (List.range k).map (fun j => TransportEvent.dispatch j)) = 1 := by
  simp [signerCalls, List.filter_map, Function.comp_def]

/-- Once the request is built, the calls of `doRequest` start with one call of the signer,
followed by the dispatches of at most three loop iterations, at least one when the signer
succeeded. -/
theorem doRequest_trace_built (c : Client) (verb reqPath body : String) (req : Request)
    (hb : buildRequest c verb reqPath body = .ok req) :
    ∃ k, k ≤ 3 ∧ (∀ signed, c.requestSigner req = .ok signed → 0 < k) ∧
      (doRequest c verb reqPath body).trace
        = .sign :: (List.range k).map (fun j => TransportEvent.dispatch j) := by
  cases hs : c.requestSigner req with
  | error e => exact ⟨0, by omega, fun _ h => by simp at h, by simp [doRequest, hb, hs]⟩
  | ok signed =>
    obtain ⟨k, hk, hpos, htr⟩ := retryLoop_trace c signed 3 0
      { resCode := 0, resBody := "", err := none, trace := [.sign] }
    exact ⟨k, hk, fun _ _ => hpos (by omega), by simpa [doRequest, hb, hs] using htr⟩

/-- C9, as the code has it. In every call of `doRequest` the request signer is invoked at most
once, before every dispatch and not once per attempt: the calls made are either none, or one
call of the signer followed by the dispatches of at most three loop iterations; whenever an
attempt is dispatched the signer was invoked exactly once; when the signer fails nothing
is dispatched and its error is returned. No call at all is made exactly when the request
could not be built, and then the build error is returned; whenever the request could be
built the signer is invoked exactly once, first, whatever the number of attempts that
follow; and when the signer succeeded, between one and three attempts are dispatched, all
with the request the signer returned. -/
theorem doRequest_signs_once (c : Client) (verb reqPath body : String) :
    ((doRequest c verb reqPath body).trace = [] ∨
      ∃ k, k ≤ 3 ∧ (doRequest c verb reqPath body).trace
        = .sign :: (List.range k).map (fun j => TransportEvent.dispatch j)) ∧
    signerCalls (doRequest c verb reqPath body).trace ≤ 1 ∧
    (0 < attempts (doRequest c verb reqPath body).trace →
      signerCalls (doRequest c verb reqPath body).trace = 1) ∧
    (∀ req e, buildRequest c verb reqPath body = .ok req → c.requestSigner req = .error e →
      (doRequest c verb reqPath body).trace = [.sign] ∧
      (doRequest c verb reqPath body).err = some e) ∧
    (∀ e, buildRequest c verb reqPath body = .error e →
      (doRequest c verb reqPath body).trace = [] ∧
      (doRequest c verb reqPath body).err = some e) ∧
    ((doRequest c verb reqPath body).trace = [] →
      ∃ e, buildRequest c verb reqPath body = .error e) ∧
    (∀ req, buildRequest c verb reqPath body = .ok req →
      signerCalls (doRequest c verb reqPath body).trace = 1 ∧
      ∃ k, k ≤ 3 ∧ attempts (doRequest c verb reqPath body).trace = k ∧
        (doRequest c verb reqPath body).trace
          = .sign :: (List.range k).map (fun j => TransportEvent.dispatch j)) ∧
    (∀ req signed, buildRequest c verb reqPath body = .ok req →
      c.requestSigner req = .ok signed →
      1 ≤ attempts (doRequest c verb reqPath body).trace ∧
      attempts (doRequest c verb reqPath body).trace ≤ 3 ∧
      doRequest c verb reqPath body
        = retryLoop c signed 3 0
            { resCode := 0, resBody := "", err := none, trace := [.sign] }) := by
  refine ⟨doRequest_trace c verb reqPath body, ?_, ?_, ?_, ?_, ?_, ?_, ?_⟩
  · rcases doRequest_trace c verb reqPath body with h | ⟨k, _, h⟩
    · rw [h]; simp [signerCalls]
    · rw [h, signerCalls_sign_dispatches]
  · intro hpos
    rcases doRequest_trace c verb reqPath body with h | ⟨k, _, h⟩
    · rw [h] at hpos; simp [attempts] at hpos
    · rw [h, signerCalls_sign_dispatches]
  · intro req e hb hs
    simp [doRequest, hb, hs]
  · intro e hb
    simp [doRequest, hb]
  · intro htr
    cases hb : buildRequest c verb reqPath body with
    | error e => exact ⟨e, rfl⟩
    | ok req =>
      obtain ⟨k, _, _, h⟩ := doRequest_trace_built c verb reqPath body req hb
      rw [h] at htr
      simp at htr
  · intro req hb
    obtain ⟨k, hk, _, h⟩ := doRequest_trace_built c verb reqPath body req hb
    rw [h, signerCalls_sign_dispatches]
    exact ⟨rfl, k, hk, attempts_sign_dispatches k, rfl⟩
  · intro req signed hb hs
    obtain ⟨k, hk, hpos, h⟩ := doRequest_trace_built c verb reqPath body req hb
    rw [h, attempts_sign_dispatches]
    refine ⟨hpos signed hs, hk, ?_⟩
    simp [doRequest, hb, hs]

/-- Counterexample to C9 as stated: with two connection failures followed by a 200 response
the loop makes three attempts and the signer is invoked once. -/
theorem doRequest_signer_not_per_attempt :
    attempts (doRequest (plainClient flakySend) "GET" "/mode" "").trace = 3 ∧
    signerCalls (doRequest (plainClient flakySend) "GET" "/mode" "").trace = 1 ∧
    (doRequest (plainClient flakySend) "GET" "/mode" "").trace
      = [.sign, .dispatch 0, .dispatch 1, .dispatch 2] := by
  decide

/-- Witness of C9 as amended: a signer that fails (one signer call, no dispatch); a request
that cannot be built (no call at all); and a signer that succeeds before two connection
failures and a 200 response (one signer call, three dispatches). -/
theorem doRequest_signs_once_witness :
    ((doRequest unsignedClient "GET" "/mode" "").trace = [.sign] ∧
      (doRequest unsignedClient "GET" "/mode" "").err = some "no credentials") ∧
    ((doRequest brokenPathClient "GET" "/mode" "").trace = [] ∧
      (doRequest brokenPathClient "GET" "/mode" "").err = some "invalid URL escape") ∧
    signerCalls (doRequest (plainClient flakySend) "GET" "/mode" "").trace = 1 ∧
    1 ≤ attempts (doRequest (plainClient flakySend) "GET" "/mode" "").trace ∧
    attempts (doRequest (plainClient flakySend) "GET" "/mode" "").trace = 3 :=
  ⟨(doRequest_signs_once unsignedClient "GET" "/mode" "").2.2.2.1 modeRequest
      "no credentials" (by decide) (by decide),
    (doRequest_signs_once brokenPathClient "GET" "/mode" "").2.2.2.2.1
      "invalid URL escape" (by decide),
    ((doRequest_signs_once (plainClient flakySend) "GET" "/mode" "").2.2.2.2.2.2.1
      modeRequest (by decide)).1,
    ((doRequest_signs_once (plainClient flakySend) "GET" "/mode" "").2.2.2.2.2.2.2
      modeRequest modeRequest (by decide) (by decide)).1,
    by decide⟩

/-- An iteration of the retry loop that is followed by another dispatch ended in a connection
failure. -/
theorem retryLoop_continues_on_connFail (c : Client) (req : Request) (n i : Nat) (r : DoResult)
    (k : Nat) (h : attempts r.trace + k + 1 < attempts (retryLoop c req n i r).trace) :
    ∃ e, c.send (i + k) req = .connFail e := by
  induction n generalizing i r k with
  | zero => simp only [retryLoop] at h; omega
  | succ n ih =>
    cases hs : c.send i req with
    | connFail e =>
      rw [retryLoop_connFail c req n i r e hs] at h
      cases k with
      | zero => exact ⟨e, by simpa using hs⟩
      | succ k =>
        have := ih (i + 1) { r with err := some e, trace := r.trace ++ [.dispatch i] } k
          (by simp only [attempts_append_dispatch]; omega)
        rwa [show i + 1 + k = i + (k + 1) by omega] at this
    | response status body readErr =>
      rw [retryLoop_response c req n i r status body readErr hs, responseResult_trace,
        attempts_append_dispatch] at h
      omega

/-- The first iteration of the retry loop that receives a response ends the loop and decides
the result. -/
theorem retryLoop_first_response (c : Client) (req : Request) (k : Nat) :
    ∀ (n i : Nat) (r : DoResult) (status : Int) (body : String) (readErr : Option String),
      k < n → (∀ j, j < k → ∃ e, c.send (i + j) req = .connFail e) →
      c.send (i + k) req = .response status body readErr →
      ∃ T, attempts T = attempts r.trace + k + 1 ∧
        retryLoop c req n i r = responseResult c T r.resBody status body readErr := by
  induction k with
  | zero =>
    intro n i r status body readErr hn _ hresp
    obtain ⟨m, rfl⟩ : ∃ m, n = m + 1 := ⟨n - 1, by omega⟩
    exact ⟨r.trace ++ [.dispatch i], by simp [attempts_append_dispatch],
      retryLoop_response c req m i r status body readErr (by simpa using hresp)⟩
  | succ k ih =>
    intro n i r status body readErr hn hconn hresp
    obtain ⟨m, rfl⟩ : ∃ m, n = m + 1 := ⟨n - 1, by omega⟩
    obtain ⟨e, he⟩ := hconn 0 (by omega)
    rw [retryLoop_connFail c req m i r e (by simpa using he)]
    obtain ⟨T, hT, hres⟩ := ih m (i + 1)
      { r with err := some e, trace := r.trace ++ [.dispatch i] } status body readErr
      (by omega)
      (fun j hj => by
        have := hconn (j + 1) (by omega)
        rwa [show i + (j + 1) = i + 1 + j by omega] at this)
      (by rwa [show i + (k + 1) = i + 1 + k by omega] at hresp)
    exact ⟨T, by rw [hT, attempts_append_dispatch]; omega, hres⟩

theorem doRequest_eq_retryLoop (c : Client) (verb reqPath body : String) (req signed : Request)
    (hb : buildRequest c verb reqPath body = .ok req) (hs : c.requestSigner req = .ok signed) :
    doRequest c verb reqPath body
      = retryLoop c signed 3 0 { resCode := 0, resBody := "", err := none, trace := [.sign] } := by
  simp [doRequest, hb, hs]

/-- C7. The retry policy of `doRequest`. At most 3 attempts are dispatched. Once the request
is built and signed: attempt `k+1` is dispatched only when the attempts before it were all
connection failures; the first outcome that is not a connection failure ends the loop and
decides the result (a 404 gives status 404 and no error, without reading the body; a failed
read of the body gives its error; a 200 gives status 200, the body and no error, also after
one or two connection failures; any other status gives the error whose message is
`status code <code>: <trimmed body>`, or `status code <code>` when the body is zero-length);
three connection failures give the last connection error. -/
theorem doRequest_retry_policy (c : Client) (verb reqPath body : String) :
    attempts (doRequest c verb reqPath body).trace ≤ 3 ∧
    ∀ req signed, buildRequest c verb reqPath body = .ok req →
      c.requestSigner req = .ok signed →
      (∀ k, k < attempts (doRequest c verb reqPath body).trace →
        ∀ j, j < k → ∃ e, c.send j signed = .connFail e) ∧
      (∀ k status resBody readErr, k < 3 →
        (∀ j, j < k → ∃ e, c.send j signed = .connFail e) →
        c.send k signed = .response status resBody readErr →
        attempts (doRequest c verb reqPath body).trace = k + 1 ∧
        (status = 404 →
          (doRequest c verb reqPath body).resCode = 404 ∧
          (doRequest c verb reqPath body).resBody = "" ∧
          (doRequest c verb reqPath body).err = none) ∧
        (status ≠ 404 → ∀ e, readErr = some e →
          (doRequest c verb reqPath body).resCode = status ∧
          (doRequest c verb reqPath body).resBody = resBody ∧
          (doRequest c verb reqPath body).err = some e) ∧
        (status = 200 → readErr = none →
          (doRequest c verb reqPath body).resCode = 200 ∧
          (doRequest c verb reqPath body).resBody = resBody ∧
          (doRequest c verb reqPath body).err = none) ∧
        (status ≠ 404 → status ≠ 200 → readErr = none →
          (doRequest c verb reqPath body).resCode = status ∧
          (doRequest c verb reqPath body).resBody = resBody ∧
          (0 < resBody.length →
            (doRequest c verb reqPath body).err
              = some ("status code " ++ toString status ++ ": " ++ c.trimSpace resBody)) ∧
          (resBody.length = 0 →
            (doRequest c verb reqPath body).err = some ("status code " ++ toString status)))) ∧
      (∀ e0 e1 e2, c.send 0 signed = .connFail e0 → c.send 1 signed = .connFail e1 →
        c.send 2 signed = .connFail e2 →
        attempts (doRequest c verb reqPath body).trace = 3 ∧
        (doRequest c verb reqPath body).resCode = 0 ∧
        (doRequest c verb reqPath body).resBody = "" ∧
        (doRequest c verb reqPath body).err = some e2) := by
  constructor
  · rcases doRequest_trace c verb reqPath body with h | ⟨k, hk, h⟩
    · rw [h]; simp [attempts]
    · rw [h, attempts_sign_dispatches]; exact hk
  intro req signed hb hs
  rw [doRequest_eq_retryLoop c verb reqPath body req signed hb hs]
  refine ⟨?_, ?_, ?_⟩
  · intro k hk j hj
    have := retryLoop_continues_on_connFail c signed 3 0
      { resCode := 0, resBody := "", err := none, trace := [.sign] } j
      (by
        have h0 : attempts [TransportEvent.sign] = 0 := by decide
        simp only [h0]
        omega)
    simpa using this
  · intro k status resBody readErr hk hconn hresp
    obtain ⟨T, hT, hres⟩ := retryLoop_first_response c signed k 3 0
      { resCode := 0, resBody := "", err := none, trace := [.sign] } status resBody readErr hk
      (fun j hj => by simpa using hconn j hj) (by simpa using hresp)
    rw [hres]
    have hT2 : attempts T = k + 1 := by simpa [attempts] using hT
    refine ⟨by rw [responseResult_trace]; exact hT2, ?_, ?_, ?_, ?_⟩
    · intro h404
      simp [responseResult, h404]
    · intro h404 e he
      simp [responseResult, h404, he]
    · intro h200 hre
      simp [responseResult, h200, hre]
    · intro h404 h200 hre
      refine ⟨by simp [responseResult, h404, h200, hre],
        by simp [responseResult, h404, h200, hre], ?_, ?_⟩
      · intro hlen
        simp [responseResult, statusError, h404, h200, hre, hlen]
      · intro hlen
        simp [responseResult, statusError, h404, h200, hre, hlen]
  · intro e0 e1 e2 h0 h1 h2
    simp [retryLoop, h0, h1, h2, attempts]

/-- Witness of C7: two connection failures, then a 200 response on the third attempt; and
one connection failure, then a 503 response whose body is trimmed into the error. -/
theorem doRequest_retry_policy_witness :
    (attempts (doRequest (plainClient flakySend) "GET" "/mode" "").trace = 2 + 1 ∧
      (doRequest (plainClient flakySend) "GET" "/mode" "").resCode = 200 ∧
      (doRequest (plainClient flakySend) "GET" "/mode" "").resBody = moneyJSON ∧
      (doRequest (plainClient flakySend) "GET" "/mode" "").err = none) ∧
    (attempts (doRequest (plainClient busySend) "GET" "/mode" "").trace = 1 + 1 ∧
      (doRequest (plainClient busySend) "GET" "/mode" "").resCode = 503 ∧
      (doRequest (plainClient busySend) "GET" "/mode" "").err
        = some ("status code " ++ toString (503 : Int) ++ ": "
            ++ (plainClient busySend).trimSpace "  try later  ") ∧
      "status code " ++ toString (503 : Int) ++ ": "
          ++ (plainClient busySend).trimSpace "  try later  "
        = "status code 503: try later") :=
  have h := ((doRequest_retry_policy (plainClient flakySend) "GET" "/mode" "").2
    modeRequest modeRequest (by decide) (by decide)).2.1 2 200 moneyJSON none (by decide)
    (fun j hj => ⟨"connection refused", by
      have : j = 0 ∨ j = 1 := by omega
      rcases this with h | h <;> subst h <;> decide⟩)
    (by decide)
  have k := ((doRequest_retry_policy (plainClient busySend) "GET" "/mode" "").2
    modeRequest modeRequest (by decide) (by decide)).2.1 1 503 "  try later  " none (by decide)
    (fun j hj => ⟨"connection reset", by
      have : j = 0 := by omega
      subst this; decide⟩)
    (by decide)
  ⟨⟨h.1, h.2.2.2.1 rfl rfl⟩,
    ⟨k.1, (k.2.2.2.2 (by decide) (by decide) rfl).1,
      (k.2.2.2.2 (by decide) (by decide) rfl).2.2.1 (by decide), by decide⟩⟩

/-! ## Claims about the registry accessors -/

theorem retryLoop_404_no_error (c : Client) (req : Request) (n i : Nat) (r : DoResult)
    (hr : r.resCode ≠ 404) (h : (retryLoop c req n i r).resCode = 404) :
    (retryLoop c req n i r).err = none := by
  induction n generalizing i r with
  | zero => exact absurd h hr
  | succ n ih =>
    cases hs : c.send i req with
    | connFail e =>
      rw [retryLoop_connFail c req n i r e hs] at h ⊢
      exact ih (i + 1) _ hr h
    | response status body readErr =>
      rw [retryLoop_response c req n i r status body readErr hs] at h ⊢
      by_cases h404 : status = 404
      · simp [responseResult, h404]
      · cases readErr with
        | some e => simp [responseResult, h404] at h
        | none =>
          by_cases h200 : status = 200
          · simp [responseResult, h200] at h
          · simp [responseResult, h404, h200] at h

/-- A status 404 reported by `doRequest` never comes with an error. -/
theorem doRequest_404_no_error (c : Client) (verb reqPath body : String)
    (h : (doRequest c verb reqPath body).resCode = 404) :
    (doRequest c verb reqPath body).err = none := by
  cases hb : buildRequest c verb reqPath body with
  | error e => simp [doRequest, hb] at h
  | ok req =>
    cases hs : c.requestSigner req with
    | error e => simp [doRequest, hb, hs] at h
    | ok signed =>
      rw [doRequest_eq_retryLoop c verb reqPath body req signed hb hs] at h ⊢
      exact retryLoop_404_no_error c signed 3 0 _ (by decide) h

theorem retryLoop_no_error_status (c : Client) (req : Request) (n i : Nat) (r : DoResult)
    (hr : n = 0 → r.err ≠ none) (h : (retryLoop c req n i r).err = none) :
    (retryLoop c req n i r).resCode = 200 ∨ (retryLoop c req n i r).resCode = 404 := by
  induction n generalizing i r with
  | zero => exact absurd h (hr rfl)
  | succ n ih =>
    cases hs : c.send i req with
    | connFail e =>
      rw [retryLoop_connFail c req n i r e hs] at h ⊢
      exact ih (i + 1) _ (fun _ => by simp) h
    | response status body readErr =>
      rw [retryLoop_response c req n i r status body readErr hs] at h ⊢
      by_cases h404 : status = 404
      · right; simp [responseResult, h404]
      · cases readErr with
        | some e => simp [responseResult, h404] at h
        | none =>
          by_cases h200 : status = 200
          · left; simp [responseResult, h200]
          · simp [responseResult, h404, h200] at h

/-- A result of `doRequest` without error has status 200 or 404: every other status, and
every run without a response, comes with an error. -/
theorem doRequest_no_error_status (c : Client) (verb reqPath body : String)
    (h : (doRequest c verb reqPath body).err = none) :
    (doRequest c verb reqPath body).resCode = 200 ∨
      (doRequest c verb reqPath body).resCode = 404 := by
  cases hb : buildRequest c verb reqPath body with
  | error e => simp [doRequest, hb] at h
  | ok req =>
    cases hs : c.requestSigner req with
    | error e => simp [doRequest, hb, hs] at h
    | ok signed =>
      rw [doRequest_eq_retryLoop c verb reqPath body req signed hb hs] at h ⊢
      exact retryLoop_no_error_status c signed 3 0 _ (by decide) h

/-- The decision table shared by both accessors, for a transport result `r`, the wrapping
`wrap` of a transport error and the not-found message `notFound`. -/
theorem accessor_table (c : Client) (wrap : String → String) (notFound : String)
    (r : DoResult) (res : Except String SchemaInfo)
    (hres : res = match r.err with
      | some e => .error (wrap e)
      | none => decodeResponse c notFound r) :
    (∀ e, r.err = some e → res = .error (wrap e)) ∧
    (r.err = none → r.resCode = 404 → res = .error notFound) ∧
    (r.err = none → r.resCode ≠ 404 → r.resBody.length = 0 →
      res = .error "schema request returned an empty body") ∧
    (r.err = none → r.resCode ≠ 404 → r.resBody.length ≠ 0 → res = c.unmarshal r.resBody) ∧
    (∀ info, res = .ok info ↔
      r.err = none ∧ r.resCode ≠ 404 ∧ r.resBody.length ≠ 0 ∧ c.unmarshal r.resBody = .ok info) := by
  subst hres
  refine ⟨?_, ?_, ?_, ?_, ?_⟩
  · intro e he; simp [he]
  · intro he h404; simp [he, decodeResponse, h404]
  · intro he h404 hlen; simp [he, decodeResponse, h404, hlen]
  · intro he h404 hlen; simp [he, decodeResponse, h404, hlen]
  · intro info
    cases he : r.err with
    | some e => simp
    | none =>
      by_cases h404 : r.resCode = 404
      · simp [decodeResponse, h404]
      · by_cases hlen : r.resBody.length = 0
        · simp [decodeResponse, h404, hlen]
        · simp [decodeResponse, h404, hlen]

/-- C8, as the code has it. Both accessors decide in this order on the transport result:
a transport error gives the request-failed error that wraps it, whatever the status and the
body (a status other than 200 and 404 always comes with such an error, also when the body is
zero-length); otherwise status 404 gives the not-found error, and a 404 never comes with a
transport error; otherwise a zero-length body gives the empty-response error; otherwise the
result is that of decoding the body. A `SchemaInfo` is returned exactly when the transport
returned no error, a status other than 404, and a non-empty body that decodes, and it is
the decoded body. -/
theorem accessors_decision_table (c : Client) (id : Int) (subject : String)
    (version : Option Int) :
    ((∀ e, (doRequest c "GET" ("/schemas/ids/" ++ toString id) "").err = some e →
        GetSchemaByID c id
          = .error ("request failed for schema \x27" ++ toString id ++ "\x27: " ++ e)) ∧
      ((doRequest c "GET" ("/schemas/ids/" ++ toString id) "").resCode = 404 →
        GetSchemaByID c id
          = .error ("schema \x27" ++ toString id ++ "\x27 not found by registry")) ∧
      ((doRequest c "GET" ("/schemas/ids/" ++ toString id) "").err = none →
        (doRequest c "GET" ("/schemas/ids/" ++ toString id) "").resCode ≠ 404 →
        (doRequest c "GET" ("/schemas/ids/" ++ toString id) "").resBody.length = 0 →
        GetSchemaByID c id = .error "schema request returned an empty body") ∧
      ((doRequest c "GET" ("/schemas/ids/" ++ toString id) "").err = none →
        (doRequest c "GET" ("/schemas/ids/" ++ toString id) "").resCode ≠ 404 →
        (doRequest c "GET" ("/schemas/ids/" ++ toString id) "").resBody.length ≠ 0 →
        GetSchemaByID c id
          = c.unmarshal (doRequest c "GET" ("/schemas/ids/" ++ toString id) "").resBody) ∧
      (∀ info, GetSchemaByID c id = .ok info ↔
        (doRequest c "GET" ("/schemas/ids/" ++ toString id) "").err = none ∧
        (doRequest c "GET" ("/schemas/ids/" ++ toString id) "").resCode ≠ 404 ∧
        (doRequest c "GET" ("/schemas/ids/" ++ toString id) "").resBody.length ≠ 0 ∧
        c.unmarshal (doRequest c "GET" ("/schemas/ids/" ++ toString id) "").resBody
          = .ok info) ∧
      ((doRequest c "GET" ("/schemas/ids/" ++ toString id) "").resCode ≠ 200 →
        (doRequest c "GET" ("/schemas/ids/" ++ toString id) "").resCode ≠ 404 →
        ∃ e, (doRequest c "GET" ("/schemas/ids/" ++ toString id) "").err = some e ∧
          GetSchemaByID c id
            = .error ("request failed for schema \x27" ++ toString id ++ "\x27: " ++ e))) ∧
    ((∀ e, (doRequest c "GET" (subjectVersionPath c subject version) "").err = some e →
        GetSchemaBySubjectAndVersion c subject version
          = .error ("request failed for schema subject " ++ c.quote subject ++ ": " ++ e)) ∧
      ((doRequest c "GET" (subjectVersionPath c subject version) "").resCode = 404 →
        GetSchemaBySubjectAndVersion c subject version
          = .error ("schema subject " ++ c.quote subject ++ " not found by registry")) ∧
      ((doRequest c "GET" (subjectVersionPath c subject version) "").err = none →
        (doRequest c "GET" (subjectVersionPath c subject version) "").resCode ≠ 404 →
        (doRequest c "GET" (subjectVersionPath c subject version) "").resBody.length = 0 →
        GetSchemaBySubjectAndVersion c subject version
          = .error "schema request returned an empty body") ∧
      ((doRequest c "GET" (subjectVersionPath c subject version) "").err = none →
        (doRequest c "GET" (subjectVersionPath c subject version) "").resCode ≠ 404 →
        (doRequest c "GET" (subjectVersionPath c subject version) "").resBody.length ≠ 0 →
        GetSchemaBySubjectAndVersion c subject version
          = c.unmarshal (doRequest c "GET" (subjectVersionPath c subject version) "").resBody) ∧
      (∀ info, GetSchemaBySubjectAndVersion c subject version = .ok info ↔
        (doRequest c "GET" (subjectVersionPath c subject version) "").err = none ∧
        (doRequest c "GET" (subjectVersionPath c subject version) "").resCode ≠ 404 ∧
        (doRequest c "GET" (subjectVersionPath c subject version) "").resBody.length ≠ 0 ∧
        c.unmarshal (doRequest c "GET" (subjectVersionPath c subject version) "").resBody
          = .ok info) ∧
      ((doRequest c "GET" (subjectVersionPath c subject version) "").resCode ≠ 200 →
        (doRequest c "GET" (subjectVersionPath c subject version) "").resCode ≠ 404 →
        ∃ e, (doRequest c "GET" (subjectVersionPath c subject version) "").err = some e ∧
          GetSchemaBySubjectAndVersion c subject version
            = .error ("request failed for schema subject " ++ c.quote subject ++ ": "
                ++ e))) := by
  have status : ∀ p, (doRequest c "GET" p "").resCode ≠ 200 →
      (doRequest c "GET" p "").resCode ≠ 404 → ∃ e, (doRequest c "GET" p "").err = some e := by
    intro p h200 h404
    cases he : (doRequest c "GET" p "").err with
    | some e => exact ⟨e, rfl⟩
    | none =>
      rcases doRequest_no_error_status c "GET" p "" he with h | h
      · exact absurd h h200
      · exact absurd h h404
  have t1 := accessor_table c
    (fun e => "request failed for schema \x27" ++ toString id ++ "\x27: " ++ e)
    ("schema \x27" ++ toString id ++ "\x27 not found by registry")
    (doRequest c "GET" ("/schemas/ids/" ++ toString id) "") (GetSchemaByID c id) rfl
  have t2 := accessor_table c
    (fun e => "request failed for schema subject " ++ c.quote subject ++ ": " ++ e)
    ("schema subject " ++ c.quote subject ++ " not found by registry")
    (doRequest c "GET" (subjectVersionPath c subject version) "")
    (GetSchemaBySubjectAndVersion c subject version) rfl
  exact ⟨⟨t1.1, fun h => t1.2.1 (doRequest_404_no_error c _ _ _ h) h, t1.2.2.1, t1.2.2.2.1,
      t1.2.2.2.2, fun h200 h404 => by
        obtain ⟨e, he⟩ := status _ h200 h404
        exact ⟨e, he, t1.1 e he⟩⟩,
    ⟨t2.1, fun h => t2.2.1 (doRequest_404_no_error c _ _ _ h) h, t2.2.2.1, t2.2.2.2.1,
      t2.2.2.2.2, fun h200 h404 => by
        obtain ⟨e, he⟩ := status _ h200 h404
        exact ⟨e, he, t2.1 e he⟩⟩⟩

/-- Counterexample to C8 as stated: a response with status 500 and a zero-length body makes
both accessors fail with the request-failed error, not with the empty-response error. -/
theorem accessors_empty_body_not_always_empty_error :
    (doRequest (plainClient serverErrorSend) "GET" "/schemas/ids/7" "").resBody.length = 0 ∧
    (doRequest (plainClient serverErrorSend) "GET" "/schemas/ids/7" "").resCode = 500 ∧
    GetSchemaByID (plainClient serverErrorSend) 7
      = .error "request failed for schema \x277\x27: status code 500" ∧
    GetSchemaByID (plainClient serverErrorSend) 7
      ≠ .error "schema request returned an empty body" ∧
    GetSchemaBySubjectAndVersion (plainClient serverErrorSend) "money" (some 1)
      = .error "request failed for schema subject \x22money\x22: status code 500" ∧
    GetSchemaBySubjectAndVersion (plainClient serverErrorSend) "money" (some 1)
      ≠ .error "schema request returned an empty body" := by
  decide

/-- Witness of C8 as amended, one client for each row of the table: two connection failures
and then 200 with a body that decodes give the decoded schema; status 404 gives the not-found
error; 200 with a zero-length body gives the empty-response error; 200 with a body that is
not JSON gives the decoder error; status 500 gives the request-failed error. -/
theorem accessors_decision_table_witness :
    GetSchemaBySubjectAndVersion (plainClient flakySend) "money" (some 1) = .ok moneySchema ∧
    GetSchemaByID (plainClient absentSend) 7
      = .error ("schema \x27" ++ toString (7 : Int) ++ "\x27 not found by registry") ∧
    GetSchemaByID (plainClient emptySend) 7 = .error "schema request returned an empty body" ∧
    GetSchemaByID (plainClient malformedSend) 7
      = (plainClient malformedSend).unmarshal
          (doRequest (plainClient malformedSend) "GET" ("/schemas/ids/" ++ toString (7 : Int))
            "").resBody ∧
    GetSchemaByID (plainClient malformedSend) 7
      = .error "invalid character \x27o\x27 in literal null (expecting \x27u\x27)" ∧
    (∃ e, (doRequest (plainClient serverErrorSend) "GET" ("/schemas/ids/" ++ toString (7 : Int))
          "").err = some e ∧
      GetSchemaByID (plainClient serverErrorSend) 7
        = .error ("request failed for schema \x27" ++ toString (7 : Int) ++ "\x27: " ++ e)) :=
  ⟨((accessors_decision_table (plainClient flakySend) 7 "money" (some 1)).2.2.2.2.2.1
      moneySchema).mpr ⟨by decide, by decide, by decide, by decide⟩,
    (accessors_decision_table (plainClient absentSend) 7 "money" (some 1)).1.2.1 (by decide),
    (accessors_decision_table (plainClient emptySend) 7 "money" (some 1)).1.2.2.1
      (by decide) (by decide) (by decide),
    (accessors_decision_table (plainClient malformedSend) 7 "money" (some 1)).1.2.2.2.1
      (by decide) (by decide) (by decide),
    by decide,
    (accessors_decision_table (plainClient serverErrorSend) 7 "money" (some 1)).1.2.2.2.2.2
      (by decide) (by decide)⟩

end SR
